import Mathlib

/-!
# Verification of rea-score primitives

A shallow embedding, in Lean 4, of the core of the `rea-score` repository
(measure-filling / event-splitting engine for musical scores), together with
theorems settling the specification claims about it.

Modelling conventions, used throughout:

* Values of the external `fraction` crate (`fraction::Fraction`, an
  auto-reducing rational with separate sign) are modelled as `ℚ`.
  `Fraction::new(n, d)` reduces the fraction, which matches `mkRat`.
  The crate accessor `numer()` returns the *magnitude* of the numerator and
  `denom()` the denominator; they are modelled as `Rat.num.natAbs` and
  `Rat.den`.  NaN/infinite fractions (zero denominator) do not arise in the
  modelled flows and are outside the model.
* `limit_denominator` (src/primitives/fraction_tools.rs, the active
  implementation) converts numerator and denominator to `f64`, rescales the
  numerator by `limit / denom`, and rounds half away from zero.  It is
  modelled as exact rational arithmetic followed by the same rounding; for
  nonnegative inputs, rounding half away from zero coincides with rounding
  half up, `(2 * n * limit + d) / (2 * d)` in natural division.  For the
  integer magnitudes arising anywhere in this development the f64
  computation is exact, so the model is faithful.
* Rust aborts (out-of-range indexing, explicit aborts, `unwrap` of `None`)
  are modelled as `Except.error` results, or as innocuous fallback values on
  branches that are proved (or plainly) unreachable; each such spot is
  commented.
* Iteration over a `VecDeque` is modelled by `List` traversal;
  `push_back`/`push_front`/`insert`/`back` become `++ [x]`, `x :: ·`,
  `List.insertIdx`, `List.getLast?`.
-/

def LIMIT_DENOMINATOR : Nat := 128

/-- `fraction::Fraction::new` over unsigned integers: builds the reduced
fraction `n / d`, which is exactly `mkRat`. -/
def Fraction.new (n d : Nat) : ℚ := mkRat n d

/-- Embedding of the active `limit_denominator` of
src/primitives/fraction_tools.rs: rescale the numerator to the target
denominator and round half away from zero (the commented-out
continued-fraction variants in that file are dead code).  The f64 arithmetic
of the source is modelled as exact arithmetic with the same final rounding;
`num.round() as u32` saturation never triggers for the magnitudes in the
modelled flows. -/
def limit_denominator (frac : ℚ) (limit : Nat) : ℚ :=
  Fraction.new ((2 * frac.num.natAbs * limit + frac.den) / (2 * frac.den)) limit

/-- The `for i in 1..num` loop body of `power_of_two`
(src/primitives/fraction_tools.rs): the first `i` with `2^i ≥ num` yields
`2^(i-1)`.  The loop bound `num - 1` is passed as structural fuel. -/
def pot_loop (num : Nat) : Nat → Nat → Option Nat
  | 0, _ => none
  | fuel + 1, i =>
    if num ≤ 2 ^ i then some (2 ^ (i - 1)) else pot_loop num fuel (i + 1)

/-- Embedding of `power_of_two` (src/primitives/fraction_tools.rs).  Note
that the source's final guard reads `num == 1 | 0`, where `1 | 0` is the
bitwise-or `1`, so only `num == 1` returns `Some(num)` there and
`power_of_two(0)` is `None`. -/
def power_of_two (num : Nat) : Option Nat :=
  if 1 < num then pot_loop num (num - 1) 1
  else if num = 1 then some num
  else none

/-- Loop invariant of `pot_loop`: starting at index `i ≥ 1` with all earlier
powers below `num`, and enough fuel to reach a power `≥ num`, the loop
returns the last power of two strictly below `num`. -/
theorem pot_loop_spec (num : Nat) :
    ∀ fuel i, 1 ≤ i → 2 ^ (i - 1) < num → num ≤ 2 ^ (i - 1 + fuel) →
    ∃ p, pot_loop num fuel i = some p ∧ 0 < p ∧ p < num ∧ num ≤ 2 * p := by
  intro fuel
  induction fuel with
  | zero =>
    intro i _ hlt hle
    simp only [Nat.add_zero] at hle
    exact absurd (lt_of_lt_of_le hlt hle) (lt_irrefl _)
  | succ n ih =>
    intro i hi hlt hle
    by_cases h : num ≤ 2 ^ i
    · refine ⟨2 ^ (i - 1), by simp [pot_loop, h], Nat.pos_pow_of_pos _ (by norm_num), hlt, ?_⟩
      calc num ≤ 2 ^ i := h
        _ = 2 * 2 ^ (i - 1) := by
            rw [← pow_succ']
            congr 1
            omega
    · have h' : 2 ^ ((i + 1) - 1) < num := by
        simpa using Nat.lt_of_not_le h
      have hle' : num ≤ 2 ^ ((i + 1) - 1 + n) := by
        have : (i + 1) - 1 + n = i - 1 + (n + 1) := by omega
        rw [this]; exact hle
      obtain ⟨p, hp, h1, h2, h3⟩ := ih (i + 1) (by omega) h' hle'
      exact ⟨p, by simpa [pot_loop, h] using hp, h1, h2, h3⟩

/-- Specification of `power_of_two` on inputs `≥ 2`: it returns the largest
power of two *strictly below* its argument (in particular `power_of_two 4 =
some 2`, not `some 4`). -/
theorem power_of_two_spec (n : Nat) (hn : 2 ≤ n) :
    ∃ p, power_of_two n = some p ∧ 0 < p ∧ p < n ∧ n ≤ 2 * p := by
  have h1 : (1 : Nat) < n := hn
  have hfuel : n ≤ 2 ^ (1 - 1 + (n - 1)) := by
    have harith : 1 - 1 + (n - 1) = n - 1 := by omega
    rw [harith]
    calc n = (n - 1) + 1 := by omega
      _ ≤ 2 ^ (n - 1) := by
          have := Nat.lt_two_pow (n - 1)
          omega
  obtain ⟨p, hp, hs⟩ := pot_loop_spec n (n - 1) 1 (le_refl 1) (by simpa using hn) hfuel
  exact ⟨p, by simpa [power_of_two, h1] using hp, hs⟩

/-- `pot_loop` only ever returns positive powers of two. -/
theorem pot_loop_pos (num : Nat) :
    ∀ fuel i p, pot_loop num fuel i = some p → 0 < p := by
  intro fuel
  induction fuel with
  | zero => intro i p h; simp [pot_loop] at h
  | succ n ih =>
    intro i p h
    by_cases hc : num ≤ 2 ^ i
    · simp only [pot_loop, if_pos hc, Option.some.injEq] at h
      subst h
      exact Nat.pos_pow_of_pos _ (by norm_num)
    · exact ih (i + 1) p (by simpa [pot_loop, hc] using h)

/-- `power_of_two` only ever returns positive values. -/
theorem power_of_two_pos {n p : Nat} (h : power_of_two n = some p) : 0 < p := by
  by_cases h1 : 1 < n
  · exact pot_loop_pos n (n - 1) 1 p (by simpa [power_of_two, h1] using h)
  · by_cases h2 : n = 1
    · have : p = n := by simpa [power_of_two, h1, h2] using h.symm
      omega
    · simp [power_of_two, h1, h2] at h

/-- The reduced form of `a / d` has numerator magnitude at most `a`. -/
theorem mkRat_natAbs_le (a d : Nat) : (mkRat (a : Int) d).num.natAbs ≤ a := by
  by_cases hd : d = 0
  · simp [hd, mkRat]
  · rcases Rat.mkRat_num_den (d := d) (n := (a : Int)) hd rfl with ⟨m, hm, hnum, _⟩
    have : (a : Int) = (mkRat (a : Int) d).num * m := hnum
    have habs : a = (mkRat (a : Int) d).num.natAbs * m := by
      have := congrArg Int.natAbs this
      simpa [Int.natAbs_mul] using this
    calc (mkRat (a : Int) d).num.natAbs
        ≤ (mkRat (a : Int) d).num.natAbs * m := Nat.le_mul_of_pos_right _ (Nat.pos_of_ne_zero hm)
      _ = a := habs.symm

/-- The recursion of `normalize_fraction`, with structural fuel: the
numerator magnitude strictly decreases on every recursive call (proved in
`nf_go_fuel_irrelevant`-style bounds below), so fuel `numerator + 1`
computes the function; fuel exhaustion (unreachable) returns the
accumulator. -/
def nf_go : Nat → ℚ → List ℚ → List ℚ
  | 0, _, head => head
  | fuel + 1, frac, head =>
    let num := frac.num.natAbs
    let den := frac.den
    if num = 0 then head
    else if den = 1 ∨ num < 5 then head ++ [frac]
    else
      match power_of_two num with
      | none => head ++ [frac]
      | some num_nr =>
        if num = num_nr then head ++ [frac]
        else
          let whole := Fraction.new num_nr den
          let remainder := Fraction.new (num - num_nr) den
          if 3 < remainder.num.natAbs then
            nf_go fuel remainder (head ++ [whole])
          else
            remainder :: whole :: head

/-- Embedding of `normalize_fraction` (src/primitives/fraction_tools.rs):
split a fraction into a sequence of simple musical lengths.  The `unwrap`
of `power_of_two` cannot fail on the branch where it is taken (numerator
`≥ 5`); the unreachable `none` arm is modelled by returning the input. -/
def normalize_fraction (frac : ℚ) (head : List ℚ) : List ℚ :=
  nf_go (frac.num.natAbs + 1) frac head

/-- `Fraction.new` in division form, for computations. -/
theorem Fraction.new_eq (n d : Nat) : Fraction.new n d = (n : ℚ) / d := by
  rw [Fraction.new, Rat.mkRat_eq_div]
  norm_num

/-- `limit_denominator` always lands on the grid of multiples of
`1 / limit`: the result's denominator divides `limit`. -/
theorem limit_denominator_den_dvd (f : ℚ) (limit : Nat) :
    (limit_denominator f limit).den ∣ limit := by
  rw [limit_denominator, Fraction.new, Rat.mkRat_eq_divInt]
  exact Int.ofNat_dvd.mp (Rat.den_dvd _ _)

/-- A fraction already of the form `q / limit` is a fixed point of
`limit_denominator · limit`. -/
theorem limit_denominator_fixed (q limit : Nat) (hl : 0 < limit) :
    limit_denominator (mkRat q limit) limit = mkRat q limit := by
  have hlz : (limit : Nat) ≠ 0 := hl.ne'
  have hmk : mkRat (q : Int) limit =
      Rat.normalize (q : Int) limit hlz := by
    rw [mkRat, dif_neg hlz]
  set g := (q : Int).natAbs.gcd limit with hg
  have hgq : g ∣ q := by
    have := Nat.gcd_dvd_left (q : Int).natAbs limit
    simpa [hg, Int.natAbs_ofNat] using this
  have hglim : g ∣ limit := Nat.gcd_dvd_right _ _
  have hgpos : 0 < g := Nat.gcd_pos_of_pos_right _ hl
  obtain ⟨t, ht⟩ := hgq
  obtain ⟨m, hm⟩ := hglim
  have hmpos : 0 < m := by
    rcases Nat.eq_zero_or_pos m with rfl | h
    · omega
    · exact h
  have hg2 : q.gcd limit = g := by rw [hg, Int.natAbs_ofNat]
  have hnum : (mkRat (q : Int) limit).num = (t : Int) := by
    rw [hmk, Rat.normalize_eq]
    simp only [Int.natAbs_ofNat]
    rw [hg2, ht]
    push_cast
    exact Int.mul_ediv_cancel_left _ (Int.natCast_ne_zero.mpr hgpos.ne')
  have hden : (mkRat (q : Int) limit).den = m := by
    rw [hmk, Rat.normalize_eq]
    simp only [Int.natAbs_ofNat]
    rw [hg2, hm, Nat.mul_div_cancel_left _ hgpos]
  rw [limit_denominator, Fraction.new]
  congr 1
  rw [hnum, hden, Int.natAbs_ofNat]
  rw [Nat.cast_inj]
  have harith : 2 * t * limit + m = m * (2 * (t * g) + 1) := by
    rw [hm]; ring
  rw [harith, show 2 * m = m * 2 by ring, Nat.mul_div_mul_left _ _ hmpos]
  have hodd : (2 * (t * g) + 1) / 2 = t * g := by omega
  rw [hodd, ht]
  ring

/-- C7.  Quantization is idempotent: applying `limit_denominator` at limit
128 twice gives the same fraction as applying it once.  (The result of one
application is a reduced `q / 128`, which the rescale-and-round computation
maps to itself.) -/
theorem C7_limit_denominator_idempotent (f : ℚ) :
    limit_denominator (limit_denominator f 128) 128 = limit_denominator f 128 :=
  limit_denominator_fixed _ 128 (by norm_num)

/-- For a nonnegative fraction, `limit_denominator` computes exactly
`round (f * limit) / limit`. -/
theorem limit_denominator_eq_round (f : ℚ) (limit : Nat) (hl : 0 < limit)
    (hf : 0 ≤ f) :
    limit_denominator f limit = ((round (f * limit) : Int) : ℚ) / limit := by
  have hden : (0 : ℚ) < (f.den : ℚ) := by exact_mod_cast f.pos
  have hnum : ((f.num.natAbs : Int)) = f.num := by
    rw [Int.natAbs_of_nonneg (Rat.num_nonneg.mpr hf)]
  have hround : round (f * limit) =
      ((2 * f.num.natAbs * limit + f.den) / (2 * f.den) : Nat) := by
    rw [round_eq]
    have hnaq : ((f.num.natAbs : ℚ)) = ((f.num : Int) : ℚ) := by
      rw [Int.cast_natAbs]
      exact congrArg (fun z : Int => (z : ℚ))
        (abs_of_nonneg (Rat.num_nonneg.mpr hf))
    have hfd : f * ((f.den : ℚ)) = ((f.num : Int) : ℚ) := by
      have hdne : ((f.den : ℚ)) ≠ 0 := ne_of_gt hden
      calc f * ((f.den : ℚ))
          = (((f.num : Int) : ℚ) / ((f.den : ℚ))) * ((f.den : ℚ)) := by
            rw [Rat.num_div_den]
        _ = ((f.num : Int) : ℚ) := div_mul_cancel₀ _ hdne
    have hx : f * limit + 1 / 2 =
        (((2 * f.num.natAbs * limit + f.den : Nat) : ℚ)) / ((2 * f.den : Nat) : ℚ) := by
      have hdne : ((2 * f.den : Nat) : ℚ) ≠ 0 := by positivity
      rw [eq_div_iff hdne]
      push_cast
      rw [hnaq]
      linear_combination (2 * (limit : ℚ)) * hfd
    rw [hx, Rat.floor_natCast_div_natCast]
    omega
  rw [limit_denominator, Fraction.new, Rat.mkRat_eq_div, hround]

/-- C2 (amended).  `limit_denominator f limit` (for `limit > 0` and
nonnegative `f`) returns the fraction on the grid of multiples of
`1 / limit` nearest to `f` (its denominator divides `limit`, and no integer
multiple of `1 / limit` is closer); it does not in general return inputs
whose denominator is already `≤ limit` unchanged, and no iterative
continued-fraction search or non-convergence error is involved. -/
theorem C2_limit_denominator_grid_nearest (f : ℚ) (limit : Nat)
    (hl : 0 < limit) (hf : 0 ≤ f) :
    (limit_denominator f limit).den ∣ limit ∧
    ∀ k : Int, |f - limit_denominator f limit| ≤ |f - (k : ℚ) / limit| := by
  refine ⟨limit_denominator_den_dvd f limit, ?_⟩
  intro k
  have hlq : (0 : ℚ) < (limit : ℚ) := by exact_mod_cast hl
  rw [limit_denominator_eq_round f limit hl hf]
  have hrw : ∀ z : Int, f - (z : ℚ) / limit = (f * limit - z) / limit := by
    intro z
    field_simp
  rw [hrw, hrw, abs_div, abs_div, abs_of_pos hlq,
    div_le_div_iff_of_pos_right hlq]
  exact round_le (f * limit) k

/-- C2 (counterexample).  The repository's own quantization unit test input:
`6/25` has denominator `25 ≤ 128`, yet `limit_denominator` maps it to
`31/128` rather than returning it unchanged (so the result is *not* the
nearest fraction with denominator `≤ 128`, and denominator-small inputs are
not fixed points). -/
theorem C2_counterexample :
    limit_denominator ((6 : ℚ) / 25) 128 = 31 / 128 ∧
    ((31 : ℚ) / 128) ≠ (6 : ℚ) / 25 ∧ ((6 : ℚ) / 25).den ≤ 128 := by
  refine ⟨?_, by norm_num, by norm_num⟩
  rw [limit_denominator]
  norm_num [Fraction.new_eq]

/-- Witness for `C2_limit_denominator_grid_nearest` at the concrete input
`6/25`, `limit = 128`. -/
theorem C2_grid_nearest_witness :
    (limit_denominator ((6 : ℚ) / 25) 128).den ∣ 128 ∧
    ∀ k : Int, |(6 : ℚ) / 25 - limit_denominator ((6 : ℚ) / 25) 128| ≤
      |(6 : ℚ) / 25 - (k : ℚ) / 128| :=
  C2_limit_denominator_grid_nearest ((6 : ℚ) / 25) 128 (by norm_num) (by norm_num)

/-- Nonnegativity of `Fraction.new`. -/
theorem Fraction.new_nonneg (n d : Nat) : 0 ≤ Fraction.new n d := by
  rw [Fraction.new_eq]
  positivity

/-- C5.  Concrete behaviour of `normalize_fraction`: the documented vectors
`5/8 ↦ [1/8, 1/2]` and `13/16 ↦ [1/16, 1/4, 1/2]` hold, a zero numerator
yields the empty sequence, but the output is *not* in general ordered
smallest first: `29/32 ↦ [1/32, 1/8, 1/2, 1/4]`, which is not ascending —
contradicting the function's own documentation ("started with the smallest,
up to the largest"). -/
theorem C5_normalize_fraction_eval :
    normalize_fraction (mkRat 5 8) [] = [mkRat 1 8, mkRat 1 2] ∧
    normalize_fraction (mkRat 13 16) [] = [mkRat 1 16, mkRat 1 4, mkRat 1 2] ∧
    normalize_fraction (0 : ℚ) [] = [] ∧
    normalize_fraction (mkRat 29 32) [] =
      [mkRat 1 32, mkRat 1 8, mkRat 1 2, mkRat 1 4] ∧
    ¬ List.Sorted (· ≤ ·) (normalize_fraction (mkRat 29 32) []) := by
  refine ⟨by decide, by decide, by decide, by decide, ?_⟩
  rw [show normalize_fraction (mkRat 29 32) [] =
    [mkRat 1 32, mkRat 1 8, mkRat 1 2, mkRat 1 4] from by decide]
  intro hs
  have := List.rel_of_sorted_cons
    (List.sorted_cons.mp (List.sorted_cons.mp hs).2).2 (mkRat 1 4) (by simp)
  revert this
  decide
/-- Splitting a nonnegative fraction's numerator preserves its value. -/
theorem fraction_split_sum (f : ℚ) (p : Nat) (hf : 0 ≤ f)
    (hple : p ≤ f.num.natAbs) :
    Fraction.new p f.den + Fraction.new (f.num.natAbs - p) f.den = f := by
  rw [Fraction.new_eq, Fraction.new_eq, div_add_div_same,
    ← Nat.cast_add, Nat.add_sub_cancel' hple]
  have hna : ((f.num.natAbs : ℚ)) = ((f.num : Int) : ℚ) := by
    rw [Int.cast_natAbs]
    exact congrArg (fun z : Int => (z : ℚ))
      (abs_of_nonneg (Rat.num_nonneg.mpr hf))
  rw [hna, Rat.num_div_den]

/-- In the splitting branch of `normalize_fraction` (numerator at least 5),
the power of two returned by `power_of_two` is at most the numerator. -/
theorem power_of_two_le_of_ge_five {n p : Nat} (h5 : 5 ≤ n)
    (hpot : power_of_two n = some p) : p ≤ n := by
  obtain ⟨q, hq, -, hlt, -⟩ := power_of_two_spec n (by omega)
  have : p = q := by rw [hpot] at hq; exact Option.some.inj hq
  omega

/-- Sum preservation for the fuelled recursion `nf_go`, for nonnegative
inputs, given enough fuel. -/
theorem nf_go_sum (fuel : Nat) : ∀ (f : ℚ) (head : List ℚ),
    f.num.natAbs < fuel → 0 ≤ f → (nf_go fuel f head).sum = head.sum + f := by
  induction fuel with
  | zero => intro f head hlt; omega
  | succ N ih =>
    intro f head hlt hf
    rw [nf_go]
    by_cases h0 : f.num.natAbs = 0
    · simp only [h0]
      have hf0 : f = 0 := by
        rw [← Rat.num_eq_zero]
        omega
      simp [hf0]
    · by_cases hb : f.den = 1 ∨ f.num.natAbs < 5
      · simp only [h0, hb]
        simp
      · have h5 : 5 ≤ f.num.natAbs := by omega
        simp only [h0, hb, if_false]
        split
        · simp
        · rename_i p hpot
          have hple : p ≤ f.num.natAbs := power_of_two_le_of_ge_five h5 hpot
          have hsplit := fraction_split_sum f p hf hple
          by_cases hne : f.num.natAbs = p
          · simp only [hne, if_pos]
            simp
          · simp only [hne, if_false]
            have hremnn : 0 ≤ Fraction.new (f.num.natAbs - p) f.den :=
              Fraction.new_nonneg _ _
            have hremlt : (Fraction.new (f.num.natAbs - p) f.den).num.natAbs < N := by
              have hub : (Fraction.new (f.num.natAbs - p) f.den).num.natAbs
                  ≤ f.num.natAbs - p := mkRat_natAbs_le _ _
              have hppos : 0 < p := power_of_two_pos hpot
              omega
            by_cases h3 : 3 < (Fraction.new (f.num.natAbs - p) f.den).num.natAbs
            · rw [if_pos h3]
              rw [ih _ _ hremlt hremnn]
              simp only [List.sum_append, List.sum_cons, List.sum_nil]
              linarith [hsplit]
            · rw [if_neg h3]
              simp only [List.sum_cons]
              linarith [hsplit]

/-- C10 (amended).  For every *nonnegative* input fraction and any starting
accumulator, the entries of `normalize_fraction` sum to the accumulator's
sum plus the input: the tied-duration decomposition loses no duration.  (For
negative inputs the claim fails, because the source reads the numerator
through the crate's sign-stripping `numer()` accessor.) -/
theorem C10_normalize_fraction_sum (f : ℚ) (head : List ℚ) (hf : 0 ≤ f) :
    (normalize_fraction f head).sum = head.sum + f :=
  nf_go_sum (f.num.natAbs + 1) f head (Nat.lt_succ_self _) hf

/-- C10 (counterexample).  For the negative input `-5/8`, the decomposition
returns `[1/8, 1/2]` (the crate accessor `numer()` drops the sign), whose
sum `5/8` differs from the input: the claim fails for "every input
fraction". -/
theorem C10_counterexample :
    mkRat (-5) 8 = -(5 : ℚ) / 8 ∧
    normalize_fraction (mkRat (-5) 8) [] = [mkRat 1 8, mkRat 1 2] ∧
    (normalize_fraction (mkRat (-5) 8) []).sum ≠ mkRat (-5) 8 := by
  refine ⟨by rw [Rat.mkRat_eq_div]; norm_num, by decide, ?_⟩
  rw [show normalize_fraction (mkRat (-5) 8) [] = [mkRat 1 8, mkRat 1 2] from by decide]
  simp only [List.sum_cons, List.sum_nil, Rat.mkRat_eq_div]
  norm_num

/-- Witness for `C10_normalize_fraction_sum` at the concrete input `13/16`
with the empty accumulator. -/
theorem C10_sum_witness :
    (normalize_fraction ((13 : ℚ) / 16) []).sum = ([] : List ℚ).sum + (13 : ℚ) / 16 :=
  C10_normalize_fraction_sum ((13 : ℚ) / 16) [] (by norm_num)

/-! ## Notation codec (src/notation/) -/

/-- Rust `str::split` on a one-character pattern, on the character list of a
string: every delimiter occurrence splits, empty pieces are kept, and the
empty string yields `[""]`.  (Defined on `List Char` so that concrete
evaluations reduce in the kernel.) -/
def split_on_char (c : Char) : List Char → List (List Char)
  | [] => [[]]
  | x :: xs =>
    let r := split_on_char c xs
    if x = c then [] :: r
    else
      match r with
      | [] => [[x]]
      | y :: ys => (x :: y) :: ys

/-- Rust `str::split` on a one-character delimiter, as `String`s. -/
def rsplit (c : Char) (s : String) : List String :=
  (split_on_char c s.data).map String.mk

/-- Rust `str::starts_with`, on character lists. -/
def starts_with : List Char → List Char → Bool
  | [], _ => true
  | _ :: _, [] => false
  | p :: ps, c :: cs => p = c && starts_with ps cs

/-- The constants of src/notation/mod.rs: section marker `"ReaScore"`,
sub-token delimiter `'|'`, key/value delimiter `':'`. -/
def SECTION : String := "ReaScore"

/-- Embedding of `NotationError` (src/notation/mod.rs); the numeric payloads
are the `u16` counts of the source. -/
inductive NotationError where
  | NoTokens : String → NotationError
  | NotEnoughTokens : Nat → Nat → NotationError
  | TooManyTokens : Nat → NotationError
  | UnexpectedToken : String → NotationError
deriving DecidableEq, Repr

/-- Embedding of `reascore_notation_string` (src/notation/mod.rs, the
version cited by the claims): keep the input records that start with the
`ReaScore` section marker; none → `None`; exactly one → its `'|'`-split
sub-tokens (marker included); more than one → a logged warning and `None`. -/
def reascore_notation_string (tokens : List String) : Option (List String) :=
  let v := tokens.filter (fun tk => starts_with SECTION.data tk.data)
  match v with
  | [] => none
  | [s] => some (rsplit '|' s)
  | _ => none

/-- Embedding of `reascore_tokens` (src/notation/mod.rs): split a sub-token
on `':'`, checking the expected token count when one is given. -/
def reascore_tokens (s : String) (expected : Option Nat) :
    Except NotationError (List String) :=
  let ts := rsplit ':' s
  if s = "" then .error (.NoTokens s)
  else
    match expected with
    | none => .ok ts
    | some am =>
      if ts.length < am then .error (.NotEnoughTokens am ts.length)
      else if am < ts.length then .error (.TooManyTokens am)
      else .ok ts

/-- Embedding of `get_token` (src/notation/mod.rs): fetch index `idx`, with
the source's hard-coded `NotEnoughTokens(2, 1)` on failure. -/
def get_token (v : List String) (idx : Nat) : Except NotationError String :=
  match v[idx]? with
  | some s => .ok s
  | none => .error (.NotEnoughTokens 2 1)

/-- Embedding of `NoteHead` (src/notation/note_notations.rs). -/
inductive NoteHead where
  | Default | AltDefault | Baroque | Neomensural | Mensural | Petrucci
  | Harmonic | HarmonicBlack | HarmonicMixed | Diamond | Cross | XCircle
  | Triangle | Slash
deriving DecidableEq, Repr

/-- `NoteHead::to_string`. -/
def NoteHead.to_string : NoteHead → String
  | .Default => "default"
  | .AltDefault => "altdefault"
  | .Baroque => "baroque"
  | .Neomensural => "neomensural"
  | .Mensural => "mensural"
  | .Petrucci => "petrucci"
  | .Harmonic => "harmonic"
  | .HarmonicBlack => "harmonic-black"
  | .HarmonicMixed => "harmonic-mixed"
  | .Diamond => "diamond"
  | .Cross => "cross"
  | .XCircle => "xcircle"
  | .Triangle => "triangle"
  | .Slash => "slash"

/-- `NoteHead::from_str`. -/
def NoteHead.from_str (s : String) : Except NotationError NoteHead :=
  if s = "default" then .ok .Default
  else if s = "altdefault" then .ok .AltDefault
  else if s = "baroque" then .ok .Baroque
  else if s = "neomensural" then .ok .Neomensural
  else if s = "mensural" then .ok .Mensural
  else if s = "petrucci" then .ok .Petrucci
  else if s = "harmonic" then .ok .Harmonic
  else if s = "harmonic-black" then .ok .HarmonicBlack
  else if s = "harmonic-mixed" then .ok .HarmonicMixed
  else if s = "diamond" then .ok .Diamond
  else if s = "cross" then .ok .Cross
  else if s = "xcircle" then .ok .XCircle
  else if s = "triangle" then .ok .Triangle
  else if s = "slash" then .ok .Slash
  else .error (.UnexpectedToken s)

/-- Embedding of `NoteNotations` (src/notation/note_notations.rs); the
`Voice` payload is the source's `u8`. -/
inductive NoteNotations where
  | NoteHead : NoteHead → NoteNotations
  | Voice : Nat → NoteNotations
deriving DecidableEq, Repr

/-- `NoteNotations::to_string`. -/
def NoteNotations.to_string : NoteNotations → String
  | .NoteHead h => "note-head:" ++ h.to_string
  | .Voice idx => "voice:" ++ toString idx

/-- `NoteNotations::from_str`.  The `"voice"` arm reproduces the source
exactly: it parses the voice index string *as a `NoteHead`* and wraps the
result in `NoteHead` (`Ok(Self::NoteHead(idx.parse()?))`), so a numeric
voice index never parses. -/
def NoteNotations.from_str (s : String) :
    Except NotationError NoteNotations := do
  let tokens ← reascore_tokens s none
  match tokens.head? with
  | none => .error (.UnexpectedToken "")
  | some t0 =>
    if t0 = "note-head" then do
      let head ← get_token tokens 1
      let h ← NoteHead.from_str head
      return NoteNotations.NoteHead h
    else if t0 = "voice" then do
      let idx ← get_token tokens 1
      let h ← NoteHead.from_str idx
      return NoteNotations.NoteHead h
    else .error (.UnexpectedToken t0)

/-- Decimal digit accumulator for `parse_nat`. -/
def parse_nat_digits : List Char → Nat → Option Nat
  | [], acc => some acc
  | c :: cs, acc =>
    if '0' ≤ c ∧ c ≤ '9' then
      parse_nat_digits cs (acc * 10 + (c.toNat - '0'.toNat))
    else none

/-- Rust unsigned-integer `str::parse`, modelled on character lists so
concrete evaluations reduce in the kernel. -/
def parse_nat (s : String) : Option Nat :=
  if s.data = [] then none else parse_nat_digits s.data 0

/-- External `fraction` crate `Fraction::from_str`, modelled for the
nonnegative `numerator/denominator` token grammar the codec emits; failures
are represented by `UnexpectedToken` (the source boxes the error). -/
def Fraction.from_str (s : String) : Except NotationError ℚ :=
  match rsplit '/' s with
  | [a] =>
    match parse_nat a with
    | some n => .ok (n : ℚ)
    | none => .error (.UnexpectedToken s)
  | [a, b] =>
    match parse_nat a, parse_nat b with
    | some n, some d => if d = 0 then .error (.UnexpectedToken s) else .ok (mkRat n d)
    | _, _ => .error (.UnexpectedToken s)
  | _ => .error (.UnexpectedToken s)

/-- Embedding of `ChordNotations` (src/notation/chord_notations.rs). -/
inductive ChordNotations where
  | Dynamics : String → ChordNotations
  | TupletRate : ℚ → ChordNotations
  | TupletEnd : ChordNotations
deriving DecidableEq, Repr

/-- `ChordNotations::to_string`; the tuplet rate prints its numerator
magnitude and denominator around `'/'`. -/
def ChordNotations.to_string : ChordNotations → String
  | .Dynamics idx => "dyn:" ++ idx
  | .TupletRate tpl => "tuplet:" ++ toString tpl.num.natAbs ++ "/" ++ toString tpl.den
  | .TupletEnd => "tuplet_end"

/-- `ChordNotations::from_str`. -/
def ChordNotations.from_str (s : String) :
    Except NotationError ChordNotations := do
  let tokens ← reascore_tokens s none
  match tokens.head? with
  | none => .error (.UnexpectedToken "")
  | some t0 =>
    if t0 = "dyn" then do
      let expr ← get_token tokens 1
      return ChordNotations.Dynamics expr
    else if t0 = "tuplet" then do
      let expr ← get_token tokens 1
      let r ← Fraction.from_str expr
      return ChordNotations.TupletRate r
    else if t0 = "tuplet_end" then return ChordNotations.TupletEnd
    else .error (.UnexpectedToken t0)

/-- `ChordNotations::is_head` (src/notation/chord_notations.rs). -/
def ChordNotations.is_head : ChordNotations → Bool
  | .Dynamics d => d ≠ "!"
  | .TupletRate _ => true
  | .TupletEnd => false

/-- Modelled from the spec: the `NotationSplitPosition` trait definition is
not in the snapshot (only its `is_head` impl for `ChordNotations` is); the
spec says head-filters and tail-filters are complementary in intent, so
`is_tail` is modelled as the negation of `is_head`.  No claim depends on the
choice: every event in the verified flows carries empty notation lists. -/
def ChordNotations.is_tail (n : ChordNotations) : Bool := ! n.is_head

/-- Modelled from the spec: the `NotationSplitPosition` impl for
`NoteNotations` is not in the snapshot; note-head styles and voice tags are
modelled as head-side markings.  No claim depends on the choice. -/
def NoteNotations.is_head (_ : NoteNotations) : Bool := true

/-- Modelled from the spec: tail counterpart of `NoteNotations.is_head`. -/
def NoteNotations.is_tail (n : NoteNotations) : Bool := ! n.is_head

deriving instance DecidableEq for Except

/-- C8.  Round-trip of the notation token codec: every `note-head:*` token
decodes and re-encodes to itself (for all fourteen head styles), and so do
`dyn:mf`, `tuplet:3/2` and `tuplet_end`; but the codec-produced token
`voice:2` (the encoding of `Voice 2`) fails to decode at all — the source's
`"voice"` match arm constructs `NoteHead(idx.parse()?)` instead of `Voice`,
so parsing the numeric index as a head style yields
`UnexpectedToken("2")`. -/
theorem C8_roundtrip_and_voice_bug :
    (∀ h : NoteHead,
      NoteNotations.from_str (NoteNotations.to_string (NoteNotations.NoteHead h)) =
        .ok (.NoteHead h)) ∧
    ChordNotations.from_str "dyn:mf" = .ok (.Dynamics "mf") ∧
    ChordNotations.to_string (.Dynamics "mf") = "dyn:mf" ∧
    ChordNotations.from_str "tuplet:3/2" = .ok (.TupletRate (mkRat 3 2)) ∧
    ChordNotations.to_string (.TupletRate (mkRat 3 2)) = "tuplet:3/2" ∧
    ChordNotations.from_str "tuplet_end" = .ok .TupletEnd ∧
    ChordNotations.to_string .TupletEnd = "tuplet_end" ∧
    NoteNotations.to_string (.Voice 2) = "voice:2" ∧
    NoteNotations.from_str "voice:2" = .error (.UnexpectedToken "2") := by
  refine ⟨?_, by decide, by decide, by decide, by decide, by decide,
    by decide, by decide, by decide⟩
  intro h
  cases h <;> decide

/-- C9.  Dispatch of `reascore_notation_string` on the number of records
carrying the `ReaScore` section marker: none → no notations; exactly one →
its `'|'`-separated sub-token list; more than one → a non-fatal warning and
no notations (`None`, not first-one-wins). -/
theorem C9_reascore_notation_string (tokens : List String) :
    (tokens.filter (fun tk => starts_with SECTION.data tk.data) = [] →
      reascore_notation_string tokens = none) ∧
    (∀ s, tokens.filter (fun tk => starts_with SECTION.data tk.data) = [s] →
      reascore_notation_string tokens = some (rsplit '|' s)) ∧
    (2 ≤ (tokens.filter (fun tk => starts_with SECTION.data tk.data)).length →
      reascore_notation_string tokens = none) := by
  refine ⟨?_, ?_, ?_⟩
  · intro h
    rw [reascore_notation_string]
    simp only [h]
  · intro s h
    rw [reascore_notation_string]
    simp only [h]
  · intro h
    rw [reascore_notation_string]
    rcases hv : tokens.filter (fun tk => starts_with SECTION.data tk.data) with
      - | ⟨a, - | ⟨b, rest⟩⟩
    · rw [hv] at h; simp at h
    · rw [hv] at h; simp at h
    · simp only [hv]

/-- Witness for `C9_reascore_notation_string`: the repository's own parsing
test record, with one plain token and one `ReaScore` section, returns the
marker-led sub-token list. -/
theorem C9_witness :
    reascore_notation_string ["text", "ReaScore|note-head:cross|dyn:\\mf"] =
      some ["ReaScore", "note-head:cross", "dyn:\\mf"] := by
  have h := (C9_reascore_notation_string
      ["text", "ReaScore|note-head:cross|dyn:\\mf"]).2.1
    "ReaScore|note-head:cross|dyn:\\mf" (by decide)
  rw [h]
  decide

/-! ## Positions and lengths (src/primitives/position.rs, length.rs)

The `RelativePosition` accessors used by container.rs/event.rs
(`position()`, `position_quantized()`, `position_quantized_to()`) are not
present in the snapshot's position.rs (which is an earlier revision exposing
`get_position()` only); they are modelled from the spec: `position()` is the
raw stored offset, the `position_quantized*` variants apply
`limit_denominator`.  Likewise `RelativePosition` subtraction (used only in
`Container::set_end_position`) is modelled from the spec as the offset
difference within one measure. -/

/-- Exact rational addition as the `fraction` crate computes it
(cross-multiply, then reduce).  Provably equal to `ℚ` addition; spelled with
`mkRat` so concrete traces reduce in the kernel. -/
def Fraction.add (a b : ℚ) : ℚ := mkRat (a.num * b.den + b.num * a.den) (a.den * b.den)

/-- Exact rational subtraction (cross-multiply, then reduce). -/
def Fraction.sub (a b : ℚ) : ℚ := mkRat (a.num * b.den - b.num * a.den) (a.den * b.den)

/-- Exact rational multiplication (multiply, then reduce). -/
def Fraction.mul (a b : ℚ) : ℚ := mkRat (a.num * b.num) (a.den * b.den)

theorem Fraction.add_eq (a b : ℚ) : Fraction.add a b = a + b := by
  rw [Fraction.add, Rat.add_def, Rat.normalize_eq_mkRat]

theorem Fraction.sub_eq (a b : ℚ) : Fraction.sub a b = a - b := by
  rw [Fraction.sub, Rat.sub_def, Rat.normalize_eq_mkRat]

theorem Fraction.mul_eq (a b : ℚ) : Fraction.mul a b = a * b := by
  rw [Fraction.mul, Rat.mul_def, Rat.normalize_eq_mkRat]

/-- Embedding of `RelativePosition` (measure index and exact offset from
the measure start). -/
structure RelativePosition where
  measure_index : Nat
  measure_position : ℚ
deriving DecidableEq, Repr

/-- Modelled from the spec: raw offset accessor `position()`. -/
def RelativePosition.position (p : RelativePosition) : ℚ := p.measure_position

/-- Modelled from the spec: `position_quantized()`, the offset quantized to
the library limit 128. -/
def RelativePosition.position_quantized (p : RelativePosition) : ℚ :=
  limit_denominator p.measure_position LIMIT_DENOMINATOR

/-- Modelled from the spec: `position_quantized_to(denom)`. -/
def RelativePosition.position_quantized_to (p : RelativePosition) (denom : Nat) : ℚ :=
  limit_denominator p.measure_position denom

/-- `set_position` (replaces the offset, keeps the measure index). -/
def RelativePosition.set_position (p : RelativePosition) (x : ℚ) : RelativePosition :=
  ⟨p.measure_index, x⟩

/-- `set_measure_index`. -/
def RelativePosition.set_measure_index (p : RelativePosition) (i : Nat) : RelativePosition :=
  ⟨i, p.measure_position⟩

/-- The derived Rust `PartialOrd` of `RelativePosition`: lexicographic on
(measure index, offset); both field orders are total so `le` is total. -/
def RelativePosition.rle (a b : RelativePosition) : Bool :=
  decide (a.measure_index < b.measure_index ∨
    (a.measure_index = b.measure_index ∧ a.measure_position ≤ b.measure_position))

/-- Embedding of `Length` (an exact fraction of a whole note). -/
structure Length where
  fraction : ℚ
deriving DecidableEq, Repr

/-- `Length::get`: the raw fraction. -/
def Length.get (l : Length) : ℚ := l.fraction

/-- `Length::get_quantized`: quantized to the library limit 128. -/
def Length.get_quantized (l : Length) : ℚ :=
  limit_denominator l.fraction LIMIT_DENOMINATOR

/-- `Length::get_quantized_to`. -/
def Length.get_quantized_to (l : Length) (denom : Nat) : ℚ :=
  limit_denominator l.fraction denom

/-- Embedding of `Pitch` (src/primitives/pitch.rs).  The wrapped
`musical_note::Note` of the external crate is represented by its MIDI
number; the optional explicit name override is kept. -/
structure Pitch where
  midi : Nat
  note_name : Option String
deriving DecidableEq, Repr

/-- `Pitch::from_midi` (the accidental hint of the source is consumed by
the external `musical_note` crate and does not affect the modelled key). -/
def Pitch.from_midi (midi : Nat) (note_name : Option String) : Pitch :=
  ⟨midi, note_name⟩

/-- Embedding of `Note` (src/primitives/event.rs). -/
structure Note where
  pitch : Pitch
  tie : Bool
  notations : List NoteNotations
  chord_notations : List ChordNotations
deriving DecidableEq, Repr

/-- `Note::new`. -/
def Note.new (pitch : Pitch) : Note := ⟨pitch, false, [], []⟩

/-- `Note::set_tie`. -/
def Note.set_tie (n : Note) (tie : Bool) : Note :=
  { n with tie := tie }

/-- `Note::remove_head_notations`. -/
def Note.remove_head_notations (n : Note) : Note :=
  { n with notations := n.notations.filter (fun nt => ! NoteNotations.is_head nt),
           chord_notations := n.chord_notations.filter (fun nt => ! ChordNotations.is_head nt) }

/-- `Note::remove_tail_notations`. -/
def Note.remove_tail_notations (n : Note) : Note :=
  { n with notations := n.notations.filter (fun nt => ! NoteNotations.is_tail nt),
           chord_notations := n.chord_notations.filter (fun nt => ! ChordNotations.is_tail nt) }

/-- Embedding of `Chord` (src/primitives/event.rs). -/
structure Chord where
  notes : List Note
  chord_notations : List ChordNotations
deriving DecidableEq, Repr

/-- `Chord::new`. -/
def Chord.new : Chord := ⟨[], []⟩

/-- `Chord::grab_chord_notations`: move the notations not already present
into the chord, clearing the source list. -/
def Chord.grab_chord_notations (c : Chord) (nts : List ChordNotations) :
    Chord × List ChordNotations :=
  let merged :=
    nts.foldl (fun acc n => if acc.contains n then acc else acc ++ [n])
      c.chord_notations
  ({ c with chord_notations := merged }, [])

/-- `Chord::set_ties`. -/
def Chord.set_ties (c : Chord) (tie : Bool) : Chord :=
  { c with notes := c.notes.map (fun n => n.set_tie tie) }

/-- `Chord::remove_head_notations`. -/
def Chord.remove_head_notations (c : Chord) : Chord :=
  { c with chord_notations := c.chord_notations.filter (fun nt => ! ChordNotations.is_head nt) }

/-- `Chord::remove_tail_notations`. -/
def Chord.remove_tail_notations (c : Chord) : Chord :=
  { c with chord_notations := c.chord_notations.filter (fun nt => ! ChordNotations.is_tail nt) }

/-- Embedding of `EventTupletType` (src/primitives/event.rs). -/
inductive EventTupletType where
  | NonTuplet : EventTupletType
  | TupletStart : ℚ → EventTupletType
  | TupletEnd : EventTupletType
deriving DecidableEq, Repr

/- Embedding of the mutually recursive event/container types of
src/primitives/event.rs and container.rs.  `VecDeque<EventInfo>` is a
`List`, the pending-tuplet slot `Option<Box<EventInfo>>` an
`Option EventInfo`. -/
mutual
inductive EventType where
  | Rest : EventType
  | Note : Note → EventType
  | Chord : Chord → EventType
  | Tuplet : Tuplet → EventType
inductive Tuplet where
  | mk : ℚ → Container → RelativePosition → Length → Tuplet
inductive Container where
  | mk : List EventInfo → RelativePosition → Length → Option EventInfo → Container
inductive EventInfo where
  | mk : RelativePosition → Length → EventType → EventTupletType → EventInfo
end

/-- Position of an event. -/
def EventInfo.position : EventInfo → RelativePosition
  | ⟨p, _, _, _⟩ => p

/-- Length of an event. -/
def EventInfo.length : EventInfo → Length
  | ⟨_, l, _, _⟩ => l

/-- Payload of an event. -/
def EventInfo.event : EventInfo → EventType
  | ⟨_, _, e, _⟩ => e

/-- Tuplet marker of an event. -/
def EventInfo.tuplet_type : EventInfo → EventTupletType
  | ⟨_, _, _, t⟩ => t

/-- `EventInfo::new`: marker defaults to `NonTuplet`. -/
def EventInfo.new (position : RelativePosition) (length : Length)
    (event : EventType) : EventInfo :=
  ⟨position, length, event, EventTupletType.NonTuplet⟩

/-- `EventInfo::set_length`. -/
def EventInfo.set_length (e : EventInfo) (l : Length) : EventInfo :=
  ⟨e.position, l, e.event, e.tuplet_type⟩

/-- `EventInfo::set_position`. -/
def EventInfo.set_position (e : EventInfo) (p : RelativePosition) : EventInfo :=
  ⟨p, e.length, e.event, e.tuplet_type⟩

/-- `EventInfo::set_event`. -/
def EventInfo.set_event (e : EventInfo) (ev : EventType) : EventInfo :=
  ⟨e.position, e.length, ev, e.tuplet_type⟩

/-- Marker update (a direct field assignment in the source). -/
def EventInfo.set_tuplet_type (e : EventInfo) (t : EventTupletType) : EventInfo :=
  ⟨e.position, e.length, e.event, t⟩

/-- `EventInfo::end_position`: start plus length, in the same measure. -/
def EventInfo.end_position (e : EventInfo) : RelativePosition :=
  e.position.set_position (Fraction.add e.position.position e.length.get)

/-- `EventInfo::set_end_position`: recompute the length from a new end. -/
def EventInfo.set_end_position (e : EventInfo) (endp : RelativePosition) : EventInfo :=
  e.set_length ⟨Fraction.sub endp.position e.position.position⟩

/-- `EventInfo::quantize_end`: adjust the length so the end is quantized
(default denominator 128). -/
def EventInfo.quantize_end (e : EventInfo) (denom : Option Nat) : EventInfo :=
  let endq := limit_denominator (Fraction.add e.position.position e.length.get)
    (denom.getD LIMIT_DENOMINATOR)
  e.set_length ⟨Fraction.sub endq e.position.position⟩

/-- `EventInfo::contains_pos`: same measure and `start ≤ pos < start + length`. -/
def EventInfo.contains_pos (e : EventInfo) (pos : RelativePosition) : Bool :=
  if pos.measure_index ≠ e.position.measure_index then false
  else decide (e.position.position ≤ pos.position ∧
    pos.position < Fraction.add e.position.position e.length.get)

/-- `EventInfo::outlasts`: the amount by which `e`'s end exceeds `other`'s
end (same measure only). -/
def EventInfo.outlasts (e other : EventInfo) : Option Length :=
  if e.position.measure_index ≠ other.position.measure_index then none
  else
    let o_end := Fraction.add other.position.position other.length.get
    let s_end := Fraction.add e.position.position e.length.get
    if s_end ≤ o_end then none
    else some ⟨Fraction.sub s_end o_end⟩

/-- `EventInfo::overlaps`: interval intersection within one measure;
sharing either start or end counts as overlap. -/
def EventInfo.overlaps (e other : EventInfo) : Bool :=
  if e.position.measure_index ≠ other.position.measure_index then false
  else
    let o_end := Fraction.add other.position.position other.length.get
    let s_end := Fraction.add e.position.position e.length.get
    let o_start := other.position.position
    let s_start := e.position.position
    if o_end = s_end ∨ o_start = s_start then true
    else if s_start < o_start then decide (o_start < s_end)
    else decide (s_start < o_end)

/-- `EventType::split` (the payload split used by `cut_head`): notes and
chords are tied and their head/tail-only markings distributed; a rest stays
a rest; splitting a tuplet payload is a fatal error in the source, modelled
as `Except.error`. -/
def EventType.split : EventType → Except String (EventType × EventType)
  | .Rest => .ok (.Rest, .Rest)
  | .Note n =>
    .ok (.Note ((n.set_tie true).remove_tail_notations),
         .Note n.remove_head_notations)
  | .Chord c =>
    .ok (.Chord ((c.set_ties true).remove_tail_notations),
         .Chord c.remove_head_notations)
  | .Tuplet _ => .error "Can not split tuplet"

/-- Total wrapper for `EventType::split` for contexts where the source has
already ruled out tuplet payloads (the unreachable arm returns the payload
unchanged on both sides). -/
def EventType.splitD (ev : EventType) : EventType × EventType :=
  match ev.split with
  | .ok p => p
  | .error _ => (ev, ev)

/-- `EventInfo::cut_head`: truncate the event and return the cut head of
the given length.  The source splits the payload first (aborting on tuplet
payloads), then rejects heads longer than the body via the *derived* (raw
fraction) order on `Length`. -/
def EventInfo.cut_head (e : EventInfo) (head_length : Length) :
    Except String (EventInfo × EventInfo) := do
  let (l_evt, r_evt) ← e.event.split
  if e.length.fraction < head_length.fraction then
    .error "Trying to cut head bigger, than body"
  else
    let l_len : Length := ⟨Fraction.sub e.length.get head_length.get⟩
    let r_len := head_length
    let r_pos := e.position.set_position (Fraction.add e.position.position l_len.get)
    let self1 := (e.set_event l_evt).set_length l_len
    let head := ((self1.set_event r_evt).set_length r_len).set_position r_pos
    .ok (self1, head)

/-- `EventInfo::cut_head_at_position`: cut so the head starts at `position`;
positions at or before the start are rejected (via the derived lexicographic
order on `RelativePosition`). -/
def EventInfo.cut_head_at_position (e : EventInfo) (position : RelativePosition) :
    Except String (EventInfo × EventInfo) :=
  if RelativePosition.rle position e.position then
    .error "can not cut at negative position"
  else
    let s_end := Fraction.add e.position.position e.length.get
    e.cut_head ⟨Fraction.sub s_end position.position⟩

/-- Events of a container. -/
def Container.events : Container → List EventInfo
  | ⟨es, _, _, _⟩ => es

/-- Position of a container. -/
def Container.position : Container → RelativePosition
  | ⟨_, p, _, _⟩ => p

/-- Length of a container. -/
def Container.length : Container → Length
  | ⟨_, _, l, _⟩ => l

/-- Pending-tuplet slot of a container. -/
def Container.tuplet : Container → Option EventInfo
  | ⟨_, _, _, t⟩ => t

/-- Replace a container's event list. -/
def Container.set_events (c : Container) (es : List EventInfo) : Container :=
  ⟨es, c.position, c.length, c.tuplet⟩

/-- Replace a container's pending-tuplet slot. -/
def Container.set_tuplet (c : Container) (t : Option EventInfo) : Container :=
  ⟨c.events, c.position, c.length, t⟩

/-- `Container::empty`: a single full-length `Rest`. -/
def Container.empty (position : RelativePosition) (length : Length) : Container :=
  ⟨[EventInfo.new position length EventType.Rest], position, length, none⟩

/-- `Container::set_end_position`: extend a trailing rest to the new end, or
append a rest covering the added span; then update the length.  The
`end - self_end` relative-position subtraction is modelled from the spec as
the offset difference. -/
def Container.set_end_position (c : Container) (endp : RelativePosition) : Container :=
  let self_end := c.position.set_position (Fraction.add c.position.position c.length.get)
  let additional_length : Length := ⟨Fraction.sub endp.position self_end.position⟩
  match c.events.getLast? with
  | none => c
  | some ev =>
    let events' :=
      match ev.event with
      | .Rest => c.events.dropLast ++ [ev.set_end_position endp]
      | _ => c.events ++ [EventInfo.new self_end additional_length EventType.Rest]
    ⟨events', c.position, ⟨Fraction.sub endp.position c.position.position⟩, c.tuplet⟩

/-- Rate of a tuplet. -/
def Tuplet.rate : Tuplet → ℚ
  | ⟨r, _, _, _⟩ => r

/-- Inner container of a tuplet. -/
def Tuplet.container : Tuplet → Container
  | ⟨_, c, _, _⟩ => c

/-- Outer position of a tuplet. -/
def Tuplet.position : Tuplet → RelativePosition
  | ⟨_, _, p, _⟩ => p

/-- Outer length of a tuplet. -/
def Tuplet.length : Tuplet → Length
  | ⟨_, _, _, l⟩ => l

/-- `Tuplet::end_position`. -/
def Tuplet.end_position (t : Tuplet) : RelativePosition :=
  t.position.set_position (Fraction.add t.position.position t.length.get)

/-- `Tuplet::apply_rate`: quantize the first event to the finer grid 256,
rebase it to offset 0 and scale its length by the rate; every further event
is rebased relative to the first, scaled and re-quantized to 128.  An empty
event list would abort in the source (`"No first event"`). -/
def Tuplet.apply_rate (rate : ℚ) :
    List EventInfo → RelativePosition × List EventInfo
  | [] => (⟨0, 0⟩, [])
  | frst :: rest =>
    let container_position := frst.position
    let frst_pos := RelativePosition.position_quantized_to frst.position 256
    let length := Length.get_quantized_to frst.length 256
    let frst1 := frst.set_length ⟨limit_denominator (Fraction.mul length rate) LIMIT_DENOMINATOR⟩
    let frst2 := frst1.set_position (frst1.position.set_position 0)
    let others := rest.map (fun ev =>
      let position := limit_denominator
        (Fraction.mul (Fraction.sub (RelativePosition.position_quantized_to ev.position 256) frst_pos) rate)
        LIMIT_DENOMINATOR
      let ev1 := ev.set_position (ev.position.set_position position)
      let length := limit_denominator
        (Fraction.mul (Length.get_quantized_to ev.length 256) rate) LIMIT_DENOMINATOR
      ev1.set_length ⟨length⟩)
    (container_position, frst2 :: others)

/-- `Tuplet::apply_rate_to_event`: rebase an event into the tuplet's scaled
coordinate space (used by `Tuplet::push`). -/
def Tuplet.apply_rate_to_event (t : Tuplet) (event : EventInfo) : EventInfo :=
  let pos := Fraction.mul (Fraction.sub event.position.position t.position.position) t.rate
  let ev1 := event.set_length ⟨Fraction.mul event.length.get t.rate⟩
  let ev2 := ev1.set_length ⟨ev1.length.get_quantized⟩
  let ev3 := ev2.set_position (ev2.position.set_position pos)
  ev3.set_position (ev3.position.set_position ev3.position.position_quantized)

/-- `Tuplet::set_end_position`: recompute the outer length, then forward the
scaled, quantized end to the inner container. -/
def Tuplet.set_end_position (t : Tuplet) (endp : RelativePosition) : Tuplet :=
  let t_length : Length := ⟨Fraction.sub endp.position t.position.position⟩
  let scaled : Length := ⟨Fraction.mul t_length.get t.rate⟩
  let legnth := scaled.get_quantized
  let end1 := endp.set_position legnth
  let c' := Container.set_end_position t.container end1
  ⟨t.rate, c', t.position, t_length⟩

/-- `Container::resolve_event_overlaps`: if the incoming event outlasts the
slot it lands in, cut the incoming event's head off (tuplet payloads are
exempt and resolved later); otherwise if the slot outlasts the incoming
event, cut the slot's head off and reinsert it right after. -/
def Container.resolve_event_overlaps (self : Container) (event : EventInfo)
    (idx : Nat) : Except String (Container × EventInfo × Option EventInfo) :=
  match self.events[idx]? with
  | none => .error "event index out of bounds"
  | some current =>
    match event.outlasts current with
    | some len =>
      match event.event with
      | .Tuplet _ => .ok (self, event, none)
      | _ => do
        let (event1, head) ← event.cut_head len
        .ok (self, event1, some head)
    | none =>
      match current.outlasts event with
      | some len => do
        let (current1, head) ← current.cut_head len
        .ok (self.set_events ((self.events.set idx current1).insertIdx (idx + 1) head),
          event, none)
      | none => .ok (self, event, none)

/-- First index whose element satisfies the predicate
(`VecDeque::iter().position(...)`). -/
def position_of (p : EventInfo → Bool) : List EventInfo → Option Nat
  | [] => none
  | x :: xs => if p x then some 0 else (position_of p xs).map (· + 1)

/-- `Chord::push`: merge a note or another chord into the chord, grabbing
its chord-level notations; rests and tuplets are rejected. -/
def Chord.push (c : Chord) (event : EventType) : Except String Chord :=
  match event with
  | .Rest => .error "Cannot push rest to chord!"
  | .Note note =>
    let grabbed := c.grab_chord_notations note.chord_notations
    let note1 := { note with chord_notations := grabbed.2 }
    .ok { grabbed.1 with notes := grabbed.1.notes ++ [note1] }
  | .Chord chord =>
    let grabbed := c.grab_chord_notations chord.chord_notations
    .ok { grabbed.1 with notes := grabbed.1.notes ++ chord.notes }
  | .Tuplet _ => .error "Can not push Tuplet to Chord!"

/- Embedding of `Container::insert` (src/primitives/container.rs) and the
functions it is mutually recursive with.  The source's recursion
(`insert` → `insert` on leftover heads, `insert` → `Tuplet::push` →
inner-container `insert`, `insert` → `convert_to_tuplet` → `Tuplet::new` →
inner-container `insert`) has no structural termination measure, so every
function takes explicit fuel and strips one unit at entry; fuel exhaustion
is modelled as an error (for the `Except`-valued functions) or an inert
fallback value (for the value-level constructors), and every theorem
quantifies over or supplies concrete fuel.  `insert` itself is split in
source order into the marker dispatch (`insert`), the slot location and
overlap resolution plus alignment (`insert_placed`), and the payload merge
with overflow propagation (`insert_merge`). -/
mutual

/-- `Container::insert`, step 1: tuplet-marker dispatch.  `TupletStart`
converts the event into a pending single-event tuplet (position quantized)
and stores it; `NonTuplet` with a pending tuplet delegates to
`Tuplet::push`; `TupletEnd` with a pending tuplet closes it (quantizing the
end, clearing the marker), stretches it to its computed end and falls
through to placement; otherwise placement runs directly (a `TupletEnd`
without pending tuplet only logs a warning). -/
def Container.insert : Nat → Container → EventInfo →
    Except String (Container × Option EventInfo)
  | 0, _, _ => .error "out of fuel"
  | fuel + 1, self, event =>
    match event.tuplet_type with
    | .TupletStart rate =>
      let event1 := EventInfo.convert_to_tuplet fuel event rate
      let event2 := event1.set_position
        (event1.position.set_position event1.position.position_quantized)
      .ok (self.set_tuplet (some event2), none)
    | .NonTuplet =>
      match self.tuplet with
      | some tup =>
        match tup.event with
        | .Tuplet t => do
          let t' ← Tuplet.push fuel t event
          .ok (self.set_tuplet (some (tup.set_event (.Tuplet t'))), none)
        | _ => .error "Tuplet event is not a tuplet"
      | none => Container.insert_placed fuel self event
    | .TupletEnd =>
      match self.tuplet with
      | none => Container.insert_placed fuel self event
      | some tup =>
        match tup.event with
        | .Tuplet t => do
          let event1 := event.quantize_end none
          let event2 := event1.set_tuplet_type .NonTuplet
          let t' ← Tuplet.push fuel t event2
          let end_pos := t'.end_position
          let ev3 := (tup.set_event (.Tuplet t')).set_end_position end_pos
          Container.insert_placed fuel (self.set_tuplet none) ev3
        | _ => .error "Tuplet event is not a tuplet"

/-- `Container::insert`, steps 2–4: locate the slot containing the event's
start (an error when none does), resolve overlaps, and if the slot does not
start exactly at the event, split it there and re-target the later piece. -/
def Container.insert_placed : Nat → Container → EventInfo →
    Except String (Container × Option EventInfo)
  | 0, _, _ => .error "out of fuel"
  | fuel + 1, self, event =>
    match position_of (fun evt => evt.contains_pos event.position) self.events with
    | none => .error "Can not find place for event"
    | some idx => do
      let (self1, event1, append_to_self) ←
        Container.resolve_event_overlaps self event idx
      match self1.events[idx]? with
      | none => .error "event index out of bounds"
      | some current =>
        if current.position ≠ event1.position then do
          let (current0, head) ← current.cut_head_at_position event1.position
          let events1 := (self1.events.set idx current0).insertIdx (idx + 1) head
          Container.insert_merge fuel (self1.set_events events1) (idx + 1) head
            event1 append_to_self
        else
          Container.insert_merge fuel self1 idx current event1 append_to_self

/-- `Container::insert`, steps 5–6: replace the (now position- and
length-aligned) slot's payload by the merged payload, then resolve any
leftover head: a head starting exactly at the (quantized) container end is
returned re-tagged for the next measure; a head whose end exceeds the
container is split at the container end, the in-bounds part recursively
inserted and the excess returned; any other head is recursively inserted
and must fully resolve. -/
def Container.insert_merge : Nat → Container → Nat → EventInfo → EventInfo →
    Option EventInfo → Except String (Container × Option EventInfo)
  | 0, _, _, _, _, _ => .error "out of fuel"
  | fuel + 1, self, idx, current, event, append_to_self => do
    let new_event ←
      match current.event with
      | .Rest => .ok event.event
      | .Chord chord => do
        let c' ← Chord.push chord event.event
        .ok (EventType.Chord c')
      | .Note note => do
        let c1 ← Chord.push Chord.new (.Note note)
        let c2 ← Chord.push c1 event.event
        .ok (EventType.Chord c2)
      | .Tuplet t => do
        let t' ← Tuplet.push fuel t event
        .ok (EventType.Tuplet t')
    let self1 := self.set_events (self.events.set idx (current.set_event new_event))
    match append_to_self with
    | none => .ok (self1, none)
    | some head =>
      if head.position.position_quantized = self1.length.get_quantized then
        .ok (self1, some ((head.set_position
          ((head.position.set_measure_index
            (self1.position.measure_index + 1)).set_position 0))))
      else
        if self1.length.get_quantized <
            (limit_denominator (Fraction.add head.position.position head.length.get)
              LIMIT_DENOMINATOR) then do
          let cut ← head.cut_head_at_position
            ⟨self1.position.measure_index, self1.length.get_quantized⟩
          let head2 := (cut.2.set_position
            ((cut.2.position.set_position 0).set_measure_index
              (self1.position.measure_index + 1)))
          match ← Container.insert fuel self1 cut.1 with
          | (self2, none) => .ok (self2, some head2)
          | (_, some _) => .error "unexpected head of event found"
        else
          match ← Container.insert fuel self1 head with
          | (self2, none) => .ok (self2, none)
          | (_, some _) => .error "unexpected head of event found"

/-- `Tuplet::push`: stretch the tuplet to the event's end, rebase the event
by the rate and insert it into the inner container (whose overflow return is
discarded by the source). -/
def Tuplet.push : Nat → Tuplet → EventInfo → Except String Tuplet
  | 0, _, _ => .error "out of fuel"
  | fuel + 1, t, event => do
    let t1 := Tuplet.set_end_position t event.end_position
    let event1 := Tuplet.apply_rate_to_event t1 event
    let r ← Container.insert fuel t1.container event1
    .ok ⟨t1.rate, r.1, t1.position, t1.length⟩

/-- `Tuplet::new`: apply the rate to the event list, size the inner
container from the last event's quantized end, and insert every event,
*discarding* each insertion's result (the source drains the iterator with
`.map(...).count()`).  An empty event list would abort in the source. -/
def Tuplet.new : Nat → ℚ → List EventInfo → Tuplet
  | 0, rate, _ => ⟨rate, Container.empty ⟨0, 0⟩ ⟨0⟩, ⟨0, 0⟩, ⟨0⟩⟩
  | fuel + 1, rate, events =>
    let applied := Tuplet.apply_rate rate events
    match applied.2.getLast? with
    | none => ⟨rate, Container.empty ⟨0, 0⟩ ⟨0⟩, applied.1, ⟨0⟩⟩
    | some back =>
      let length := Fraction.add back.position.position_quantized back.length.get_quantized
      let container0 := Container.empty ⟨applied.1.measure_index, 0⟩ ⟨length⟩
      let container := applied.2.foldl
        (fun c ev =>
          match Container.insert fuel c ev with
          | .ok r => r.1
          | .error _ => c)
        container0
      ⟨rate, container, applied.1, ⟨length⟩⟩

/-- `EventInfo::convert_to_tuplet`: wrap a non-tuplet event into a
fresh single-event `Tuplet` payload at the given rate. -/
def EventInfo.convert_to_tuplet : Nat → EventInfo → ℚ → EventInfo
  | 0, e, _ => e
  | fuel + 1, e, rate =>
    match e.event with
    | .Tuplet _ => e
    | _ =>
      let self1 := e.set_tuplet_type .NonTuplet
      self1.set_event (.Tuplet (Tuplet.new fuel rate [self1]))

end

/-! ## Rendering (src/lilypond_render, event.rs render impls)

The ambient render settings come from the host when it is available; in the
modelled flows the host is absent, so `global_render_settings()` yields the
default key of C major, and the pitch spelling of the external
`musical_note` crate is modelled for that key: sharp-wise letter names per
pitch class, octave count `midi / 12` rendered relative to octave 4
(pinned by the repository's own test vectors `60 ↦ "c'"`, `62 ↦ "d'"`). -/

/-- `NoteNotations::render` (note_notations.rs): head styles emit a
LilyPond override; rendering a voice tag aborts in the source. -/
def NoteNotations.render (n : NoteNotations) (pitch_string : String) : String :=
  match n with
  | .NoteHead head =>
    "\\override NoteHead.style = #'" ++ head.to_string ++ " " ++ pitch_string
  | .Voice _ => "<Voice can not be rendered!>"

/-- `ChordNotations::render` (chord_notations.rs): dynamics append a
backslash command; rendering tuplet markers aborts in the source. -/
def ChordNotations.render (n : ChordNotations) (pitch_string : String) : String :=
  match n with
  | .Dynamics d => pitch_string ++ "\\" ++ d
  | .TupletRate _ => "<unimplemented>"
  | .TupletEnd => "<unimplemented>"

/-- Modelled from the external `musical_note` crate (key C major): letter
name of a pitch class, sharp spelling. -/
def pitch_class_name (cls : Nat) : String :=
  match cls with
  | 0 => "c" | 1 => "cis" | 2 => "d" | 3 => "dis" | 4 => "e" | 5 => "f"
  | 6 => "fis" | 7 => "g" | 8 => "gis" | 9 => "a" | 10 => "ais" | _ => "b"

/-- Octave marks relative to octave 4: apostrophes above, commas below. -/
def octave_marks (raw : Nat) : String :=
  if raw ≥ 4 then String.mk (List.replicate (raw - 4) '\'')
  else String.mk (List.replicate (4 - raw) ',')

/-- `Note::render_lilypond`'s pitch resolution (`Pitch::resolve` plus the
name/accidental/octave assembly), modelled for the default C-major key: an
explicit name override wins, otherwise letter name plus octave marks with
`raw = midi / 12`. -/
def Pitch.resolve_name (p : Pitch) : String :=
  match p.note_name with
  | some s => s
  | none => pitch_class_name (p.midi % 12) ++ octave_marks (p.midi / 12)

/-- `Note::render_lilypond`: pitch, duration, notation folds, tie. -/
def Note.render_lilypond (n : Note) (length_string : String) : String :=
  let pitch := n.pitch.resolve_name ++ length_string
  let s := n.notations.foldl (fun p nt => NoteNotations.render nt p) pitch
  let s := n.chord_notations.foldl (fun p nt => ChordNotations.render nt p) s
  if n.tie then s ++ "~" else s

/-- `Chord::render_lilypond`: space-separated duration-less notes inside
`< ... >`, duration suffix, then the chord-notation folds. -/
def Chord.render_lilypond (c : Chord) (length_string : String) : String :=
  let note_string := c.notes.map (fun n => n.render_lilypond "")
  let s := "< " ++ String.intercalate " " note_string ++ " >" ++ length_string
  c.chord_notations.foldl (fun p nt => ChordNotations.render nt p) s

/-- `Length::render_lilypond` (length.rs): numerator 1 prints the
denominator, numerator 3 a dotted halved denominator (or a dotted breve);
any other quantized numerator aborts in the source. -/
def Length.render_lilypond (l : Length) : String :=
  let q := l.get_quantized
  match q.num.natAbs with
  | 1 => toString q.den
  | 3 => if 1 < q.den then toString (q.den / 2) ++ "." else "\\breve."
  | _ => "<invalid length>"

/-- `EventInfo::with_normalized_length`'s fragment loop: walk the
normalized lengths largest-first, splitting the payload before each
non-final fragment; positions advance by quantized position plus fragment
length. -/
def wnl_loop : List ℚ → Nat → Nat → RelativePosition → EventType → List EventInfo
  | [], _, _, _, _ => []
  | l :: rest, idx, len, pos, ev =>
    let pieces := if idx = len - 1 then (ev, ev) else ev.splitD
    let here := EventInfo.new pos ⟨l⟩ pieces.1
    here :: wnl_loop rest (idx + 1) len
      (pos.set_position (Fraction.add pos.position_quantized l)) pieces.2

/-- `EventInfo::with_normalized_length`: decompose the event into its tied
fragments; single-duration events and tuplets pass through unchanged. -/
def EventInfo.with_normalized_length (e : EventInfo) : List EventInfo :=
  let lengths := normalize_fraction e.length.get_quantized []
  let len := lengths.length
  if len = 1 then [e]
  else
    match e.event with
    | .Tuplet _ => [e]
    | _ => wnl_loop lengths.reverse 0 len e.position e.event

/- Rendering of events is recursive through tuplet payloads (a tuplet
renders its inner container's events); like `insert`, every function of the
mutual block takes fuel and strips one unit at entry, so the whole block is
structurally recursive and concrete renders reduce.  The source's
`join(" ")` over mapped iterators is implemented by direct recursion over
the lists (`tuplet_events_render`, `fragments_render`), producing the same
space-separated string. -/
mutual

/-- `EventType::render_lilypond`: dispatch on the payload; the tuplet arm
ignores the pre-computed duration string. -/
def EventType.render_lilypond : Nat → EventType → String → String
  | 0, _, _ => "<out of fuel>"
  | fuel + 1, ev, length_string =>
    match ev with
    | .Rest => "r" ++ length_string
    | .Note note => note.render_lilypond length_string
    | .Chord chord => chord.render_lilypond length_string
    | .Tuplet t => Tuplet.render_lilypond fuel t length_string

/-- `Tuplet::render_lilypond`: `\tuplet N/M { ... }` around the inner
container's events, each expanded through `with_normalized_length`. -/
def Tuplet.render_lilypond : Nat → Tuplet → String → String
  | 0, _, _ => "<out of fuel>"
  | fuel + 1, t, _ =>
    "\\tuplet " ++ toString t.rate.num.natAbs ++ "/" ++ toString t.rate.den ++
      " \x7b " ++ tuplet_events_render fuel t.container.events ++ " \x7d"

/-- Space-joined renders of a tuplet's events (the outer `join(" ")`). -/
def tuplet_events_render : Nat → List EventInfo → String
  | 0, _ => "<out of fuel>"
  | _ + 1, [] => ""
  | fuel + 1, [ev] => fragments_render fuel ev.with_normalized_length
  | fuel + 1, ev :: rest =>
    fragments_render fuel ev.with_normalized_length ++ " " ++
      tuplet_events_render fuel rest

/-- Space-joined renders of one event's normalized fragments (the inner
`join(" ")`). -/
def fragments_render : Nat → List EventInfo → String
  | 0, _ => "<out of fuel>"
  | _ + 1, [] => ""
  | fuel + 1, [e] => EventInfo.render_lilypond fuel e
  | fuel + 1, e :: rest =>
    EventInfo.render_lilypond fuel e ++ " " ++ fragments_render fuel rest

/-- `EventInfo::render_lilypond`: duration string from the length, then the
payload render (settings resolve to the default C-major key: the host is
absent in the modelled flows). -/
def EventInfo.render_lilypond : Nat → EventInfo → String
  | 0, _ => "<out of fuel>"
  | fuel + 1, e =>
    EventType.render_lilypond fuel e.event (e.length.render_lilypond)

end

/-- C3.  Inserting a single eighth-note at offset 1/4 into a freshly
created 4/4 container (one full-measure rest) returns `Ok(None)` and leaves
exactly the three events `Rest[0,1/4)`, `Note[1/4,3/8)`, `Rest[3/8,1)`, in
order. -/
theorem C3_insert_note_into_fresh_measure :
    Container.insert 9 (Container.empty ⟨1, 0⟩ ⟨1⟩)
      (EventInfo.new ⟨1, mkRat 1 4⟩ ⟨mkRat 1 8⟩
        (.Note (Note.new (Pitch.from_midi 60 none)))) =
    .ok (⟨[EventInfo.new ⟨1, 0⟩ ⟨mkRat 1 4⟩ .Rest,
           EventInfo.new ⟨1, mkRat 1 4⟩ ⟨mkRat 1 8⟩
             (.Note (Note.new (Pitch.from_midi 60 none))),
           EventInfo.new ⟨1, mkRat 3 8⟩ ⟨mkRat 5 8⟩ .Rest],
          ⟨1, 0⟩, ⟨1⟩, none⟩, none) := by
  rfl

/-- C4.  Inserting an event of length 1/2 at offset 3/4 into an otherwise
empty 4/4 container returns `Ok(Some(overflow))`, where the overflow event
sits at measure index one past the container's, offset 0, with length
exactly the excess 1/4; the in-measure part remains as a tied note on
`[3/4, 1)`.  Shown at measure indexes 1 and 7 (the index enters the
computation only through equality checks against itself and the final
increment). -/
theorem C4_insert_overflow_next_measure :
    (Container.insert 9 (Container.empty ⟨1, 0⟩ ⟨1⟩)
      (EventInfo.new ⟨1, mkRat 3 4⟩ ⟨mkRat 1 2⟩
        (.Note (Note.new (Pitch.from_midi 60 none)))) =
    .ok (⟨[EventInfo.new ⟨1, 0⟩ ⟨mkRat 3 4⟩ .Rest,
           EventInfo.new ⟨1, mkRat 3 4⟩ ⟨mkRat 1 4⟩
             (.Note ⟨Pitch.from_midi 60 none, true, [], []⟩)],
          ⟨1, 0⟩, ⟨1⟩, none⟩,
         some (EventInfo.new ⟨2, 0⟩ ⟨mkRat 1 4⟩
           (.Note (Note.new (Pitch.from_midi 60 none)))))) ∧
    (Container.insert 9 (Container.empty ⟨7, 0⟩ ⟨1⟩)
      (EventInfo.new ⟨7, mkRat 3 4⟩ ⟨mkRat 1 2⟩
        (.Note (Note.new (Pitch.from_midi 60 none)))) =
    .ok (⟨[EventInfo.new ⟨7, 0⟩ ⟨mkRat 3 4⟩ .Rest,
           EventInfo.new ⟨7, mkRat 3 4⟩ ⟨mkRat 1 4⟩
             (.Note ⟨Pitch.from_midi 60 none, true, [], []⟩)],
          ⟨7, 0⟩, ⟨1⟩, none⟩,
         some (EventInfo.new ⟨8, 0⟩ ⟨mkRat 1 4⟩
           (.Note (Note.new (Pitch.from_midi 60 none)))))) := by
  exact ⟨rfl, rfl⟩

/-- The two triplet fixtures of the repository's tests/tuplet.rs: a
quarter-plus-eighth triplet of middle C … -/
def triplet_quarter_eighth : EventInfo :=
  EventInfo.new ⟨1, mkRat 1 4⟩ ⟨mkRat 1 4⟩
    (.Tuplet (Tuplet.new 20 (mkRat 3 2)
      [EventInfo.new ⟨1, mkRat 1 4⟩ ⟨mkRat 2 12⟩
         (.Note (Note.new (Pitch.from_midi 60 none))),
       EventInfo.new ⟨1, Fraction.add (mkRat 1 4) (mkRat 2 12)⟩ ⟨mkRat 1 12⟩
         (.Note (Note.new (Pitch.from_midi 60 none)))]))

/-- … and the three-slot triplet holding C, a gap (rest) and the two-note
chord C+D, at rate 3/2 starting at offset 1/4. -/
def triplet_note_rest_chord : EventInfo :=
  EventInfo.new ⟨1, mkRat 1 4⟩ ⟨mkRat 1 4⟩
    (.Tuplet (Tuplet.new 20 (mkRat 3 2)
      [EventInfo.new ⟨1, mkRat 3 12⟩ ⟨mkRat 1 12⟩
         (.Note (Note.new (Pitch.from_midi 60 none))),
       EventInfo.new ⟨1, mkRat 5 12⟩ ⟨mkRat 1 12⟩
         (.Note (Note.new (Pitch.from_midi 60 none))),
       EventInfo.new ⟨1, mkRat 5 12⟩ ⟨mkRat 1 12⟩
         (.Note (Note.new (Pitch.from_midi 62 none)))]))

/-- C6 (counterexample).  The chord triplet does *not* render with the
claimed chord spelling `<c' d'>8`: `Chord::render_lilypond` pads the angle
brackets (`format!("< {} >…")`), as the repository's own test vector
records. -/
theorem C6_counterexample :
    EventInfo.render_lilypond 99 triplet_note_rest_chord ≠
      "\\tuplet 3/2 \x7b c'8 r8 <c' d'>8 \x7d" := by
  decide

/-- C6 (amended).  The triplet fixtures render byte-for-byte as the
repository's tests demand: `\tuplet 3/2 { c'4 c'8 }` for the
quarter-plus-eighth triplet, and `\tuplet 3/2 { c'8 r8 < c' d' >8 }` (with
spaces inside the chord brackets) for the note/rest/chord triplet. -/
theorem C6_tuplet_render :
    EventInfo.render_lilypond 99 triplet_quarter_eighth =
      "\\tuplet 3/2 \x7b c'4 c'8 \x7d" ∧
    EventInfo.render_lilypond 99 triplet_note_rest_chord =
      "\\tuplet 3/2 \x7b c'8 r8 < c' d' >8 \x7d" := by
  exact ⟨rfl, rfl⟩

/-! ## The container invariant (C1)

`Voice::insert_event` feeds events one at a time into the measure
containers, keeping each `Ok` container and routing the returned overflow
head into the next measure; `insertAll` is that per-container loop. -/

/-- A sequence of `Container::insert` calls, keeping each returned
container and discarding the overflow heads (the caller re-targets them at
the next measure). -/
def insertAll (fuel : Nat) : Container → List EventInfo → Except String Container
  | c, [] => .ok c
  | c, e :: rest =>
    match Container.insert fuel c e with
    | .error s => .error s
    | .ok r => insertAll fuel r.1 rest

/-- The head-to-tail chain shape behind the container invariant: every
event lies in measure `m`, the first starts at `start`, each further event
starts exactly where its predecessor ended, and the last ends at `stop`. -/
def isChain (m : Nat) : ℚ → List EventInfo → ℚ → Prop
  | start, [], stop => start = stop
  | start, e :: rest, stop =>
    e.position.measure_index = m ∧ e.position.measure_position = start ∧
      isChain m (start + e.length.fraction) rest stop

/-- The container invariant: the events chain head-to-tail across
`[0, length)` in the container's own measure, and every stored event has
positive length. -/
def chainInv (c : Container) : Prop :=
  isChain c.position.measure_index 0 c.events c.length.fraction ∧
    ∀ e ∈ c.events, 0 < e.length.fraction

theorem events_set_events (c : Container) (es : List EventInfo) :
    (c.set_events es).events = es := rfl

theorem position_set_events (c : Container) (es : List EventInfo) :
    (c.set_events es).position = c.position := rfl

theorem length_set_events (c : Container) (es : List EventInfo) :
    (c.set_events es).length = c.length := rfl

theorem events_set_tuplet (c : Container) (t : Option EventInfo) :
    (c.set_tuplet t).events = c.events := rfl

theorem position_set_tuplet (c : Container) (t : Option EventInfo) :
    (c.set_tuplet t).position = c.position := rfl

theorem length_set_tuplet (c : Container) (t : Option EventInfo) :
    (c.set_tuplet t).length = c.length := rfl

theorem position_set_event (e : EventInfo) (ev : EventType) :
    (e.set_event ev).position = e.position := rfl

theorem length_set_event (e : EventInfo) (ev : EventType) :
    (e.set_event ev).length = e.length := rfl

theorem tuplet_type_set_event (e : EventInfo) (ev : EventType) :
    (e.set_event ev).tuplet_type = e.tuplet_type := rfl

/-- C1 (counterexample).  `Container::insert` returns `Ok` for an event of
negative length −1/4 placed at offset 1/2: the container then holds
`Rest[0,1/2)`, the negative-length event, and `Rest[1/4,1)`.  Its first and
third events overlap by the source's own `EventInfo::overlaps`, and the
middle stored length is negative, so the events are neither pairwise
non-overlapping nor a gap-free tiling of `[0, 1)`. -/
theorem C1_counterexample :
    insertAll 9 (Container.empty ⟨1, 0⟩ ⟨1⟩)
      [EventInfo.new ⟨1, mkRat 1 2⟩ ⟨mkRat (-1) 4⟩ .Rest] =
      .ok ⟨[EventInfo.new ⟨1, 0⟩ ⟨mkRat 1 2⟩ .Rest,
            EventInfo.new ⟨1, mkRat 1 2⟩ ⟨mkRat (-1) 4⟩ .Rest,
            EventInfo.new ⟨1, mkRat 1 4⟩ ⟨mkRat 3 4⟩ .Rest],
           ⟨1, 0⟩, ⟨1⟩, none⟩ ∧
    EventInfo.overlaps (EventInfo.new ⟨1, 0⟩ ⟨mkRat 1 2⟩ .Rest)
      (EventInfo.new ⟨1, mkRat 1 4⟩ ⟨mkRat 3 4⟩ .Rest) = true ∧
    (EventInfo.new ⟨1, mkRat 1 2⟩ ⟨mkRat (-1) 4⟩ .Rest).length.fraction < 0 := by
  exact ⟨rfl, by decide, by decide⟩

theorem getElem?_set_self {l : List EventInfo} {i : Nat} {x a : EventInfo}
    (h : l[i]? = some x) : (l.set i a)[i]? = some a := by
  induction l generalizing i with
  | nil => simp at h
  | cons y ys ih =>
    cases i with
    | zero => simp [List.set]
    | succ j =>
      simp only [List.getElem?_cons_succ] at h
      simpa only [List.set, List.getElem?_cons_succ] using ih h

theorem getElem?_insertIdx_succ_self {l : List EventInfo} {i : Nat} {x b : EventInfo}
    (h : l[i]? = some x) : (l.insertIdx (i + 1) b)[i + 1]? = some b := by
  induction l generalizing i with
  | nil => simp at h
  | cons y ys ih =>
    cases i with
    | zero =>
      show (y :: b :: ys)[1]? = some b
      simp
    | succ j =>
      simp only [List.getElem?_cons_succ] at h
      have := ih h
      show (y :: ys.insertIdx (j + 1) b)[j + 1 + 1]? = some b
      simpa only [List.getElem?_cons_succ] using this

theorem getElem?_insertIdx_succ_lt {l : List EventInfo} {i : Nat} {x b : EventInfo}
    (h : l[i]? = some x) : (l.insertIdx (i + 1) b)[i]? = some x := by
  induction l generalizing i with
  | nil => simp at h
  | cons y ys ih =>
    cases i with
    | zero =>
      show (y :: b :: ys)[0]? = some x
      simpa using h
    | succ j =>
      simp only [List.getElem?_cons_succ] at h
      have := ih h
      show (y :: ys.insertIdx (j + 1) b)[j + 1]? = some x
      simpa only [List.getElem?_cons_succ] using this

theorem mem_insertIdx_cases {l : List EventInfo} {i : Nat} {b x : EventInfo}
    (h : x ∈ l.insertIdx i b) : x = b ∨ x ∈ l := by
  induction l generalizing i with
  | nil =>
    cases i with
    | zero => simp at h; exact .inl h
    | succ j => simp [List.insertIdx, List.modifyTailIdx] at h
  | cons y ys ih =>
    cases i with
    | zero =>
      rcases List.mem_cons.mp h with h | h
      · exact .inl h
      · exact .inr h
    | succ j =>
      have h' : x ∈ y :: ys.insertIdx j b := h
      rcases List.mem_cons.mp h' with h | h
      · exact .inr (List.mem_cons.mpr (.inl h))
      · rcases ih h with h | h
        · exact .inl h
        · exact .inr (List.mem_cons.mpr (.inr h))
theorem isChain_set {m : Nat} {a cur : EventInfo} {l : List EventInfo} {i : Nat} {s t : ℚ}
    (hch : isChain m s l t) (hget : l[i]? = some cur)
    (hpos : a.position = cur.position) (hlen : a.length.fraction = cur.length.fraction) :
    isChain m s (l.set i a) t := by
  induction l generalizing i s with
  | nil => simp at hget
  | cons y ys ih =>
    obtain ⟨h1, h2, h3⟩ := hch
    cases i with
    | zero =>
      simp only [List.getElem?_cons_zero, Option.some.injEq] at hget
      subst hget
      refine ⟨by rw [hpos]; exact h1, by rw [hpos]; exact h2, ?_⟩
      rw [show a.length.fraction = y.length.fraction from hlen]
      exact h3
    | succ j =>
      simp only [List.getElem?_cons_succ] at hget
      exact ⟨h1, h2, ih h3 hget⟩

theorem isChain_split {m : Nat} {a b cur : EventInfo} {l : List EventInfo} {i : Nat} {s t : ℚ}
    (hch : isChain m s l t) (hget : l[i]? = some cur)
    (hapos : a.position = cur.position)
    (hbidx : b.position.measure_index = m)
    (hboff : b.position.measure_position =
      cur.position.measure_position + a.length.fraction)
    (hsum : a.length.fraction + b.length.fraction = cur.length.fraction) :
    isChain m s ((l.set i a).insertIdx (i + 1) b) t := by
  induction l generalizing i s with
  | nil => simp at hget
  | cons y ys ih =>
    obtain ⟨h1, h2, h3⟩ := hch
    cases i with
    | zero =>
      simp only [List.getElem?_cons_zero, Option.some.injEq] at hget
      subst hget
      refine ⟨by rw [hapos]; exact h1, by rw [hapos]; exact h2, hbidx, ?_, ?_⟩
      · rw [hboff, h2]
      · have harr : s + a.length.fraction + b.length.fraction = s + y.length.fraction := by
          rw [add_assoc, hsum]
        rw [harr]
        exact h3
    | succ j =>
      simp only [List.getElem?_cons_succ] at hget
      exact ⟨h1, h2, ih h3 hget⟩

theorem isChain_sum {m : Nat} {l : List EventInfo} :
    ∀ {s t : ℚ}, isChain m s l t →
      s + (l.map (fun e => e.length.fraction)).sum = t := by
  induction l with
  | nil => intro s t h; simpa using h
  | cons y ys ih =>
    intro s t h
    obtain ⟨_, _, h3⟩ := h
    have := ih h3
    simp only [List.map_cons, List.sum_cons]
    linarith [this]

theorem isChain_index {m : Nat} {l : List EventInfo} :
    ∀ {s t : ℚ}, isChain m s l t → ∀ x ∈ l, x.position.measure_index = m := by
  induction l with
  | nil => intro s t _ x hx; cases hx
  | cons y ys ih =>
    intro s t h x hx
    obtain ⟨h1, _, h3⟩ := h
    rcases List.mem_cons.mp hx with rfl | hx
    · exact h1
    · exact ih h3 x hx

theorem isChain_start_le {m : Nat} {l : List EventInfo} :
    ∀ {s t : ℚ}, isChain m s l t → (∀ e ∈ l, 0 < e.length.fraction) →
      ∀ x ∈ l, s ≤ x.position.measure_position := by
  induction l with
  | nil => intro s t _ _ x hx; cases hx
  | cons y ys ih =>
    intro s t h hpos x hx
    obtain ⟨_, h2, h3⟩ := h
    rcases List.mem_cons.mp hx with rfl | hx
    · rw [h2]
    · have hy : 0 < y.length.fraction := hpos y (List.mem_cons.mpr (.inl rfl))
      have := ih h3 (fun e he => hpos e (List.mem_cons.mpr (.inr he))) x hx
      linarith
theorem isChain_pairwise_le {m : Nat} {l : List EventInfo} :
    ∀ {s t : ℚ}, isChain m s l t → (∀ e ∈ l, 0 < e.length.fraction) →
      List.Pairwise (fun a b =>
        a.position.measure_position + a.length.fraction ≤
          b.position.measure_position) l := by
  induction l with
  | nil => intro s t _ _; exact List.Pairwise.nil
  | cons y ys ih =>
    intro s t h hpos
    obtain ⟨_, h2, h3⟩ := h
    refine List.Pairwise.cons ?_ (ih h3 (fun e he => hpos e (List.mem_cons.mpr (.inr he))))
    intro b hb
    have := isChain_start_le h3 (fun e he => hpos e (List.mem_cons.mpr (.inr he))) b hb
    rw [h2]
    exact this

theorem overlaps_false_of_disjoint {a b : EventInfo}
    (hidx : a.position.measure_index = b.position.measure_index)
    (ha : 0 < a.length.fraction) (hb : 0 < b.length.fraction)
    (hle : a.position.measure_position + a.length.fraction ≤ b.position.measure_position) :
    EventInfo.overlaps a b = false := by
  simp only [EventInfo.overlaps, RelativePosition.position, Length.get, Fraction.add_eq]
  rw [if_neg (by simp [hidx]), if_neg, if_pos (by linarith)]
  · exact decide_eq_false (by linarith)
  · push_neg
    constructor
    · intro hctr
      have hblt : b.position.measure_position < b.position.measure_position + b.length.fraction := by
        linarith
      linarith [hctr]
    · intro hctr
      linarith [hctr]

theorem isChain_cover {m : Nat} {l : List EventInfo} :
    ∀ {s t : ℚ}, isChain m s l t → (∀ e ∈ l, 0 < e.length.fraction) →
      ∀ q : ℚ, s ≤ q → q < t → ∃ e ∈ l, e.contains_pos ⟨m, q⟩ = true := by
  induction l with
  | nil =>
    intro s t h _ q hq1 hq2
    rw [show s = t from h] at hq1
    linarith
  | cons y ys ih =>
    intro s t h hpos q hq1 hq2
    obtain ⟨h1, h2, h3⟩ := h
    by_cases hq : q < s + y.length.fraction
    · refine ⟨y, List.mem_cons.mpr (.inl rfl), ?_⟩
      simp only [EventInfo.contains_pos, RelativePosition.position, Length.get, Fraction.add_eq]
      rw [if_neg (by simp [h1]), decide_eq_true_eq]
      rw [h2]
      exact ⟨hq1, hq⟩
    · obtain ⟨e, he, hc⟩ := ih h3 (fun e he => hpos e (List.mem_cons.mpr (.inr he))) q
        (by linarith [not_lt.mp hq]) hq2
      exact ⟨e, List.mem_cons.mpr (.inr he), hc⟩
theorem rle_false_elim {a b : RelativePosition}
    (h : RelativePosition.rle a b = false)
    (hidx : a.measure_index = b.measure_index) :
    b.measure_position < a.measure_position := by
  simp only [RelativePosition.rle, decide_eq_false_iff_not] at h
  push_neg at h
  exact h.2 hidx

theorem contains_pos_true {e : EventInfo} {pos : RelativePosition}
    (h : e.contains_pos pos = true) :
    pos.measure_index = e.position.measure_index ∧
    e.position.measure_position ≤ pos.measure_position ∧
    pos.measure_position < e.position.measure_position + e.length.fraction := by
  simp only [EventInfo.contains_pos, RelativePosition.position, Length.get,
    Fraction.add_eq] at h
  by_cases hidx : pos.measure_index ≠ e.position.measure_index
  · rw [if_pos hidx] at h; cases h
  · rw [if_neg hidx, decide_eq_true_eq] at h
    exact ⟨not_ne_iff.mp hidx, h.1, h.2⟩

theorem outlasts_some {e other : EventInfo} {len : Length}
    (h : e.outlasts other = some len) :
    e.position.measure_index = other.position.measure_index ∧
    len.fraction = (e.position.measure_position + e.length.fraction) -
      (other.position.measure_position + other.length.fraction) ∧
    other.position.measure_position + other.length.fraction <
      e.position.measure_position + e.length.fraction := by
  simp only [EventInfo.outlasts, RelativePosition.position, Length.get,
    Fraction.add_eq, Fraction.sub_eq] at h
  by_cases hidx : e.position.measure_index ≠ other.position.measure_index
  · rw [if_pos hidx] at h; cases h
  · rw [if_neg hidx] at h
    by_cases hle : e.position.measure_position + e.length.fraction ≤
        other.position.measure_position + other.length.fraction
    · rw [if_pos hle] at h; cases h
    · rw [if_neg hle] at h
      injection h with h
      subst h
      exact ⟨not_ne_iff.mp hidx, rfl, lt_of_not_le hle⟩

theorem position_of_spec {p : EventInfo → Bool} {l : List EventInfo} {idx : Nat}
    (h : position_of p l = some idx) :
    ∃ x, l[idx]? = some x ∧ p x = true := by
  induction l generalizing idx with
  | nil => rw [position_of] at h; cases h
  | cons x xs ih =>
    rw [position_of] at h
    by_cases hp : p x
    · rw [if_pos hp] at h
      injection h with h
      subst h
      exact ⟨x, by simp, hp⟩
    · rw [if_neg hp] at h
      cases hrec : position_of p xs with
      | none => rw [hrec] at h; cases h
      | some j =>
        rw [hrec] at h
        simp only [Option.map_some', Option.some.injEq] at h
        subst h
        obtain ⟨y, hy, hpy⟩ := ih hrec
        exact ⟨y, by simpa only [List.getElem?_cons_succ] using hy, hpy⟩
theorem cut_head_spec {e : EventInfo} {hl : Length} {e1 hd : EventInfo}
    (h : e.cut_head hl = .ok (e1, hd)) :
    e1.position = e.position ∧
    e1.length.fraction = e.length.fraction - hl.fraction ∧
    e1.tuplet_type = e.tuplet_type ∧
    hd.position.measure_index = e.position.measure_index ∧
    hd.position.measure_position =
      e.position.measure_position + (e.length.fraction - hl.fraction) ∧
    hd.length.fraction = hl.fraction ∧
    hd.tuplet_type = e.tuplet_type ∧
    hl.fraction ≤ e.length.fraction := by
  unfold EventInfo.cut_head at h
  cases hsp : e.event.split with
  | error s => rw [hsp] at h; cases h
  | ok p =>
    obtain ⟨l_evt, r_evt⟩ := p
    rw [hsp] at h
    simp only [bind, Except.bind] at h
    by_cases hguard : e.length.fraction < hl.fraction
    · rw [if_pos hguard] at h; cases h
    · rw [if_neg hguard] at h
      simp only [Except.ok.injEq, Prod.mk.injEq] at h
      obtain ⟨he1, hhd⟩ := h
      subst he1
      subst hhd
      refine ⟨rfl, ?_, rfl, rfl, ?_, rfl, rfl, not_lt.mp hguard⟩
      · show Fraction.sub e.length.fraction hl.fraction = _
        rw [Fraction.sub_eq]
      · show Fraction.add e.position.measure_position
          (Fraction.sub e.length.fraction hl.fraction) = _
        rw [Fraction.add_eq, Fraction.sub_eq]

theorem cut_head_at_position_spec {e : EventInfo} {pos : RelativePosition} {e1 hd : EventInfo}
    (h : e.cut_head_at_position pos = .ok (e1, hd)) :
    RelativePosition.rle pos e.position = false ∧
    e1.position = e.position ∧
    e1.length.fraction = pos.measure_position - e.position.measure_position ∧
    e1.tuplet_type = e.tuplet_type ∧
    hd.position.measure_index = e.position.measure_index ∧
    hd.position.measure_position = pos.measure_position ∧
    hd.length.fraction =
      e.position.measure_position + e.length.fraction - pos.measure_position ∧
    hd.tuplet_type = e.tuplet_type := by
  unfold EventInfo.cut_head_at_position at h
  by_cases hg : RelativePosition.rle pos e.position = true
  · rw [if_pos hg] at h; cases h
  · rw [if_neg hg] at h
    have hs := cut_head_spec h
    have hfr : (⟨Fraction.sub (Fraction.add e.position.position e.length.get)
        pos.position⟩ : Length).fraction =
        e.position.measure_position + e.length.fraction - pos.measure_position := by
      show Fraction.sub (Fraction.add e.position.measure_position e.length.fraction)
        pos.measure_position = _
      rw [Fraction.add_eq, Fraction.sub_eq]
    obtain ⟨hp1, hl1, ht1, hi2, hp2, hl2, ht2, hle⟩ := hs
    rw [hfr] at hl1 hp2 hl2
    refine ⟨Bool.eq_false_iff.mpr hg, hp1, by rw [hl1]; ring, ht1, hi2,
      by rw [hp2]; ring, hl2, ht2⟩
theorem resolve_spec {self : Container} {event : EventInfo} {idx : Nat}
    {self1 : Container} {event1 : EventInfo} {app : Option EventInfo} {cur : EventInfo}
    (h : Container.resolve_event_overlaps self event idx = .ok (self1, event1, app))
    (hcur : self.events[idx]? = some cur)
    (hch : isChain self.position.measure_index 0 self.events self.length.fraction)
    (hpos : ∀ e ∈ self.events, 0 < e.length.fraction)
    (hlow : cur.position.measure_position ≤ event.position.measure_position)
    (hhigh : event.position.measure_position <
      cur.position.measure_position + cur.length.fraction)
    (hepos : 0 < event.length.fraction) :
    self1.position = self.position ∧ self1.length = self.length ∧
    isChain self.position.measure_index 0 self1.events self.length.fraction ∧
    (∀ e ∈ self1.events, 0 < e.length.fraction) ∧
    event1.position = event.position ∧
    event1.tuplet_type = event.tuplet_type ∧
    0 < event1.length.fraction ∧
    (∃ cur1, self1.events[idx]? = some cur1 ∧ cur1.position = cur.position ∧
      event.position.measure_position <
        cur1.position.measure_position + cur1.length.fraction) ∧
    (∀ hd, app = some hd → 0 < hd.length.fraction ∧
      hd.tuplet_type = event.tuplet_type ∧
      hd.position.measure_index = event.position.measure_index) := by
  unfold Container.resolve_event_overlaps at h
  split at h
  next heq => cases h
  next current heq =>
    rw [hcur] at heq
    injection heq with heq
    subst heq
    split at h
    next len hout =>
      obtain ⟨hoidx, holen, holt⟩ := outlasts_some hout
      split at h
      next t hev =>
        simp only [Except.ok.injEq, Prod.mk.injEq] at h
        obtain ⟨h1, h2, h3⟩ := h
        subst h1; subst h2; subst h3
        exact ⟨rfl, rfl, hch, hpos, rfl, rfl, hepos, ⟨cur, hcur, rfl, hhigh⟩,
          fun hd hhd => by cases hhd⟩
      next hne =>
        cases hcut : event.cut_head len with
        | error s => rw [hcut] at h; cases h
        | ok p =>
          obtain ⟨e1', hd'⟩ := p
          rw [hcut] at h
          simp only [bind, Except.bind, Except.ok.injEq, Prod.mk.injEq] at h
          obtain ⟨h1, h2, h3⟩ := h
          subst h1; subst h2; subst h3
          obtain ⟨hp1, hl1, ht1, hi2, hp2, hl2, ht2, hle⟩ := cut_head_spec hcut
          refine ⟨rfl, rfl, hch, hpos, hp1, ht1, ?_, ⟨cur, hcur, rfl, hhigh⟩, ?_⟩
          · rw [hl1, holen]; linarith
          · intro hd hhd
            injection hhd with hhd
            subst hhd
            exact ⟨by rw [hl2, holen]; linarith, ht2, hi2⟩
    next hout1 =>
      split at h
      next len hout2 =>
        obtain ⟨hoidx, holen, holt⟩ := outlasts_some hout2
        cases hcut : cur.cut_head len with
        | error s => rw [hcut] at h; cases h
        | ok p =>
          obtain ⟨cur1, hd'⟩ := p
          rw [hcut] at h
          simp only [bind, Except.bind, Except.ok.injEq, Prod.mk.injEq] at h
          obtain ⟨h1, h2, h3⟩ := h
          subst h1; subst h2; subst h3
          obtain ⟨hp1, hl1, ht1, hi2, hp2, hl2, ht2, hle⟩ := cut_head_spec hcut
          have hm : cur.position.measure_index = self.position.measure_index :=
            isChain_index hch cur (List.getElem?_mem hcur)
          have hcur1len : cur1.length.fraction =
              event.position.measure_position + event.length.fraction -
                cur.position.measure_position := by
            rw [hl1, holen]; ring
          have hcur1pos : 0 < cur1.length.fraction := by
            rw [hcur1len]; linarith
          have hhdpos : 0 < hd'.length.fraction := by
            rw [hl2, holen]; linarith
          refine ⟨rfl, rfl, ?_, ?_, rfl, rfl, hepos, ?_, fun hd hhd => by cases hhd⟩
          · rw [events_set_events]
            exact isChain_split hch hcur hp1 (hi2.trans hm)
              (by rw [hp2, hl1]) (by rw [hl1, hl2]; ring)
          · rw [events_set_events]
            intro e he
            rcases mem_insertIdx_cases he with rfl | he
            · exact hhdpos
            · rcases List.mem_or_eq_of_mem_set he with he | rfl
              · exact hpos e he
              · exact hcur1pos
          · refine ⟨cur1, ?_, hp1, ?_⟩
            · rw [events_set_events]
              exact getElem?_insertIdx_succ_lt (getElem?_set_self hcur)
            · rw [hp1, hcur1len]; linarith
      next hout2 =>
        simp only [Except.ok.injEq, Prod.mk.injEq] at h
        obtain ⟨h1, h2, h3⟩ := h
        subst h1; subst h2; subst h3
        exact ⟨rfl, rfl, hch, hpos, rfl, rfl, hepos, ⟨cur, hcur, rfl, hhigh⟩,
          fun hd hhd => by cases hhd⟩
/-- Preservation statement for `Container::insert` at a given fuel. -/
def InsertP (fuel : Nat) : Prop :=
  ∀ (self : Container) (event : EventInfo) (c' : Container) (r : Option EventInfo),
    event.tuplet_type = EventTupletType.NonTuplet →
    0 < event.length.fraction → chainInv self →
    Container.insert fuel self event = .ok (c', r) →
    chainInv c' ∧ c'.position = self.position ∧ c'.length = self.length

/-- Preservation statement for `Container::insert_placed` at a given fuel. -/
def PlacedP (fuel : Nat) : Prop :=
  ∀ (self : Container) (event : EventInfo) (c' : Container) (r : Option EventInfo),
    event.tuplet_type = EventTupletType.NonTuplet →
    0 < event.length.fraction → chainInv self →
    Container.insert_placed fuel self event = .ok (c', r) →
    chainInv c' ∧ c'.position = self.position ∧ c'.length = self.length

/-- Preservation statement for `Container::insert_merge` at a given fuel. -/
def MergeP (fuel : Nat) : Prop :=
  ∀ (self : Container) (idx : Nat) (current event : EventInfo)
    (app : Option EventInfo) (c' : Container) (r : Option EventInfo),
    chainInv self →
    self.events[idx]? = some current →
    (∀ hd, app = some hd → 0 < hd.length.fraction ∧
      hd.tuplet_type = EventTupletType.NonTuplet ∧
      hd.position.measure_index = self.position.measure_index) →
    Container.insert_merge fuel self idx current event app = .ok (c', r) →
    chainInv c' ∧ c'.position = self.position ∧ c'.length = self.length

/-- Replacing the payload of a stored event preserves the container
invariant (the slot's geometry is untouched). -/
theorem merge_set_inv {self : Container} {idx : Nat} {current : EventInfo}
    (hinv : chainInv self) (hcur : self.events[idx]? = some current)
    (ne : EventType) :
    chainInv (self.set_events (self.events.set idx (current.set_event ne))) := by
  constructor
  · show isChain self.position.measure_index 0
      (self.events.set idx (current.set_event ne)) self.length.fraction
    exact isChain_set hinv.1 hcur (position_set_event current ne)
      (by rw [length_set_event])
  · show ∀ e ∈ self.events.set idx (current.set_event ne), 0 < e.length.fraction
    intro e he
    rcases List.mem_or_eq_of_mem_set he with he | rfl
    · exact hinv.2 e he
    · show 0 < (current.set_event ne).length.fraction
      rw [length_set_event]
      exact hinv.2 current (List.getElem?_mem hcur)

/-- The tail of `Container::insert_merge` in the `append_to_self = some`
case: each of its three branches (re-tag for the next measure, split at the
container end and recurse, recurse wholesale) preserves the invariant. -/
theorem merge_app_some {fuel : Nat} (hi : InsertP fuel) (self : Container) (idx : Nat)
    (current : EventInfo) (ne : EventType) (head : EventInfo)
    (c2 : Container) (r2 : Option EventInfo)
    (hk : (if head.position.position_quantized =
            (self.set_events (self.events.set idx (current.set_event ne))).length.get_quantized then
             (Except.ok ((self.set_events (self.events.set idx (current.set_event ne))),
               some (head.set_position
                 ((head.position.set_measure_index
                   ((self.set_events (self.events.set idx
                     (current.set_event ne))).position.measure_index + 1)).set_position 0))) :
              Except String (Container × Option EventInfo))
           else if (self.set_events (self.events.set idx
               (current.set_event ne))).length.get_quantized <
               limit_denominator (Fraction.add head.position.position head.length.get)
                 LIMIT_DENOMINATOR then
             (head.cut_head_at_position
               ⟨(self.set_events (self.events.set idx
                   (current.set_event ne))).position.measure_index,
                (self.set_events (self.events.set idx
                   (current.set_event ne))).length.get_quantized⟩) >>= (fun cut =>
               (Container.insert fuel (self.set_events (self.events.set idx
                   (current.set_event ne))) cut.1) >>= (fun pr =>
                 match pr with
                 | (self2, none) => .ok (self2, some (cut.2.set_position
                     ((cut.2.position.set_position 0).set_measure_index
                       ((self.set_events (self.events.set idx
                         (current.set_event ne))).position.measure_index + 1))))
                 | (_, some _) => .error "unexpected head of event found"))
           else
             (Container.insert fuel (self.set_events (self.events.set idx
                 (current.set_event ne))) head) >>= (fun pr =>
               match pr with
               | (self2, none) => .ok (self2, none)
               | (_, some _) => .error "unexpected head of event found")) = .ok (c2, r2))
    (hinv : chainInv self) (hcur : self.events[idx]? = some current)
    (hhdpos : 0 < head.length.fraction)
    (hhdtt : head.tuplet_type = EventTupletType.NonTuplet)
    (hhdidx : head.position.measure_index = self.position.measure_index) :
    chainInv c2 ∧ c2.position = self.position ∧ c2.length = self.length := by
  have hch1 := merge_set_inv hinv hcur ne
  by_cases hq : head.position.position_quantized =
      (self.set_events (self.events.set idx (current.set_event ne))).length.get_quantized
  · rw [if_pos hq] at hk
    simp only [Except.ok.injEq, Prod.mk.injEq] at hk
    obtain ⟨h1, h2⟩ := hk
    subst h1
    exact ⟨hch1, rfl, rfl⟩
  · rw [if_neg hq] at hk
    by_cases hlt : (self.set_events (self.events.set idx
          (current.set_event ne))).length.get_quantized <
        limit_denominator (Fraction.add head.position.position head.length.get)
          LIMIT_DENOMINATOR
    · rw [if_pos hlt] at hk
      cases hcut : head.cut_head_at_position
          ⟨(self.set_events (self.events.set idx
              (current.set_event ne))).position.measure_index,
           (self.set_events (self.events.set idx
              (current.set_event ne))).length.get_quantized⟩ with
      | error s => rw [hcut] at hk; cases hk
      | ok cut =>
        rw [hcut] at hk
        simp only [bind, Except.bind] at hk
        obtain ⟨hrle, hc1p, hc1l, hc1t, _, _, _, _⟩ := cut_head_at_position_spec hcut
        have hcutpos : 0 < (cut.1).length.fraction := by
          have hlt2 := rle_false_elim hrle (by exact hhdidx.symm)
          rw [hc1l]
          linarith [hlt2]
        have hcuttt : (cut.1).tuplet_type = EventTupletType.NonTuplet := by
          rw [hc1t]; exact hhdtt
        cases hins : Container.insert fuel
            (self.set_events (self.events.set idx (current.set_event ne))) cut.1 with
        | error s => rw [hins] at hk; cases hk
        | ok pr =>
          rw [hins] at hk
          simp only [bind, Except.bind] at hk
          obtain ⟨self2, o⟩ := pr
          cases o with
          | none =>
            simp only [Except.ok.injEq, Prod.mk.injEq] at hk
            obtain ⟨h1, h2⟩ := hk
            subst h1
            have hr := hi _ cut.1 self2 none hcuttt hcutpos hch1 hins
            exact ⟨hr.1, hr.2.1, hr.2.2⟩
          | some oh =>
            cases hk
    · rw [if_neg hlt] at hk
      cases hins : Container.insert fuel
          (self.set_events (self.events.set idx (current.set_event ne))) head with
      | error s => rw [hins] at hk; cases hk
      | ok pr =>
        rw [hins] at hk
        simp only [bind, Except.bind] at hk
        obtain ⟨self2, o⟩ := pr
        cases o with
        | none =>
          simp only [Except.ok.injEq, Prod.mk.injEq] at hk
          obtain ⟨h1, h2⟩ := hk
          subst h1
          have hr := hi _ head self2 none hhdtt hhdpos hch1 hins
          exact ⟨hr.1, hr.2.1, hr.2.2⟩
        | some oh =>
          cases hk

theorem merge_step {fuel : Nat} (hi : InsertP fuel) : MergeP (fuel + 1) := by
  intro self idx current event app c' r hinv hcur happ h
  unfold Container.insert_merge at h
  split at h
  case h_1 =>
    split at h
    case h_1 hev =>
      simp only [bind, Except.bind] at h
      simp only [Except.ok.injEq, Prod.mk.injEq] at h
      obtain ⟨h1, h2⟩ := h
      subst h1
      exact ⟨merge_set_inv hinv hcur event.event, rfl, rfl⟩
    case h_2 chord hev =>
      cases hpush : Chord.push chord event.event with
      | error s => rw [hpush] at h; simp only [bind, Except.bind] at h; cases h
      | ok ch =>
        rw [hpush] at h
        simp only [bind, Except.bind, Except.ok.injEq, Prod.mk.injEq] at h
        obtain ⟨h1, h2⟩ := h
        subst h1
        exact ⟨merge_set_inv hinv hcur (EventType.Chord ch), rfl, rfl⟩
    case h_3 note hev =>
      cases hpush1 : Chord.push Chord.new (EventType.Note note) with
      | error s => rw [hpush1] at h; simp only [bind, Except.bind] at h; cases h
      | ok ch1 =>
        rw [hpush1] at h
        simp only [bind, Except.bind] at h
        cases hpush2 : Chord.push ch1 event.event with
        | error s => rw [hpush2] at h; simp only [bind, Except.bind] at h; cases h
        | ok ch2 =>
          rw [hpush2] at h
          simp only [bind, Except.bind, Except.ok.injEq, Prod.mk.injEq] at h
          obtain ⟨h1, h2⟩ := h
          subst h1
          exact ⟨merge_set_inv hinv hcur (EventType.Chord ch2), rfl, rfl⟩
    case h_4 t hev =>
      cases hpush : Tuplet.push fuel t event with
      | error s => rw [hpush] at h; simp only [bind, Except.bind] at h; cases h
      | ok t2 =>
        rw [hpush] at h
        simp only [bind, Except.bind, Except.ok.injEq, Prod.mk.injEq] at h
        obtain ⟨h1, h2⟩ := h
        subst h1
        exact ⟨merge_set_inv hinv hcur (EventType.Tuplet t2), rfl, rfl⟩
  case h_2 hd =>
    obtain ⟨hhdpos, hhdtt, hhdidx⟩ := happ hd rfl
    split at h
    case h_1 hev =>
      simp only [bind, Except.bind] at h
      exact merge_app_some hi self idx current event.event hd c' r h hinv hcur
        hhdpos hhdtt hhdidx
    case h_2 chord hev =>
      cases hpush : Chord.push chord event.event with
      | error s => rw [hpush] at h; simp only [bind, Except.bind] at h; cases h
      | ok ch =>
        rw [hpush] at h
        simp only [bind, Except.bind] at h
        exact merge_app_some hi self idx current (EventType.Chord ch) hd c' r h hinv hcur
          hhdpos hhdtt hhdidx
    case h_3 note hev =>
      cases hpush1 : Chord.push Chord.new (EventType.Note note) with
      | error s => rw [hpush1] at h; simp only [bind, Except.bind] at h; cases h
      | ok ch1 =>
        rw [hpush1] at h
        simp only [bind, Except.bind] at h
        cases hpush2 : Chord.push ch1 event.event with
        | error s => rw [hpush2] at h; simp only [bind, Except.bind] at h; cases h
        | ok ch2 =>
          rw [hpush2] at h
          simp only [bind, Except.bind] at h
          exact merge_app_some hi self idx current (EventType.Chord ch2) hd c' r h hinv hcur
            hhdpos hhdtt hhdidx
    case h_4 t hev =>
      cases hpush : Tuplet.push fuel t event with
      | error s => rw [hpush] at h; simp only [bind, Except.bind] at h; cases h
      | ok t2 =>
        rw [hpush] at h
        simp only [bind, Except.bind] at h
        exact merge_app_some hi self idx current (EventType.Tuplet t2) hd c' r h hinv hcur
          hhdpos hhdtt hhdidx
theorem placed_step {fuel : Nat} (hm : MergeP fuel) : PlacedP (fuel + 1) := by
  intro self event c' r htt hlen hinv h
  unfold Container.insert_placed at h
  split at h
  case h_1 heq => cases h
  case h_2 idx hpos =>
    obtain ⟨cur, hcur, hcont⟩ := position_of_spec hpos
    obtain ⟨hcidx, hclow, hchigh⟩ := contains_pos_true hcont
    have hcurm : cur.position.measure_index = self.position.measure_index :=
      isChain_index hinv.1 cur (List.getElem?_mem hcur)
    cases hres : Container.resolve_event_overlaps self event idx with
    | error s => rw [hres] at h; simp only [bind, Except.bind] at h; cases h
    | ok trip =>
      obtain ⟨self1, event1, app⟩ := trip
      rw [hres] at h
      simp only [bind, Except.bind] at h
      obtain ⟨hsp, hsl, hch1, hpos1, hep, het, hel,
        ⟨cur1, hcur1, hc1p, hc1high⟩, happR⟩ :=
        resolve_spec hres hcur hinv.1 hinv.2 hclow hchigh hlen
      have hinv1 : chainInv self1 := by
        constructor
        · rw [hsp, hsl]
          exact hch1
        · exact hpos1
      have hm0 : event.position.measure_index = self.position.measure_index :=
        hcidx.trans hcurm
      split at h
      case h_1 heqn =>
        rw [hcur1] at heqn
        cases heqn
      case h_2 current2 heqs =>
        rw [hcur1] at heqs
        injection heqs with heqs
        subst heqs
        by_cases hne : cur1.position = event1.position
        · rw [if_neg (not_not_intro hne)] at h
          have happ2 : ∀ hd, app = some hd → 0 < hd.length.fraction ∧
              hd.tuplet_type = EventTupletType.NonTuplet ∧
              hd.position.measure_index = self1.position.measure_index := by
            intro hd hhd
            obtain ⟨hh1, hh2, hh3⟩ := happR hd hhd
            exact ⟨hh1, hh2.trans htt, by rw [hsp]; exact hh3.trans hm0⟩
          have hr := hm self1 idx cur1 event1 app c' r hinv1 hcur1 happ2 h
          exact ⟨hr.1, hr.2.1.trans hsp, hr.2.2.trans hsl⟩
        · rw [if_pos hne] at h
          cases hcut : cur1.cut_head_at_position event1.position with
          | error s => rw [hcut] at h; simp only [bind, Except.bind] at h; cases h
          | ok cut =>
            obtain ⟨cur0, headp⟩ := cut
            rw [hcut] at h
            simp only [bind, Except.bind] at h
            obtain ⟨hrle, hc0p, hc0l, hc0t, hhdidx2, hhdoff2, hhdlen2, hhdtt2⟩ :=
              cut_head_at_position_spec hcut
            have hidxeq : event1.position.measure_index = cur1.position.measure_index := by
              rw [hep, hc1p]
              exact hcidx
            have hoff : cur1.position.measure_position < event1.position.measure_position :=
              rle_false_elim hrle hidxeq
            have hc0pos : 0 < cur0.length.fraction := by
              rw [hc0l]; linarith
            have hhppos : 0 < headp.length.fraction := by
              rw [hhdlen2]
              have : event1.position.measure_position <
                  cur1.position.measure_position + cur1.length.fraction := by
                rw [hep]
                exact hc1high
              linarith
            have hx : isChain self.position.measure_index 0
                ((self1.events.set idx cur0).insertIdx (idx + 1) headp)
                self.length.fraction :=
              isChain_split hch1 hcur1 hc0p
                (by rw [hhdidx2, hc1p]; exact hcurm)
                (by rw [hhdoff2, hc0l]; ring)
                (by rw [hc0l, hhdlen2]; ring)
            have hinv2 : chainInv (self1.set_events
                ((self1.events.set idx cur0).insertIdx (idx + 1) headp)) := by
              constructor
              · rw [position_set_events, length_set_events, events_set_events, hsp, hsl]
                exact hx
              · rw [events_set_events]
                intro e he
                rcases mem_insertIdx_cases he with rfl | he
                · exact hhppos
                · rcases List.mem_or_eq_of_mem_set he with he | rfl
                  · exact hpos1 e he
                  · exact hc0pos
            have hget2 : (self1.set_events
                ((self1.events.set idx cur0).insertIdx (idx + 1) headp)).events[idx + 1]? =
                some headp := by
              rw [events_set_events]
              exact getElem?_insertIdx_succ_self (getElem?_set_self hcur1)
            have happ2 : ∀ hd, app = some hd → 0 < hd.length.fraction ∧
                hd.tuplet_type = EventTupletType.NonTuplet ∧
                hd.position.measure_index = (self1.set_events
                  ((self1.events.set idx cur0).insertIdx (idx + 1) headp)).position.measure_index := by
              intro hd hhd
              obtain ⟨hh1, hh2, hh3⟩ := happR hd hhd
              refine ⟨hh1, hh2.trans htt, ?_⟩
              rw [position_set_events, hsp]
              exact hh3.trans hm0
            have hr := hm (self1.set_events
                ((self1.events.set idx cur0).insertIdx (idx + 1) headp))
              (idx + 1) headp event1 app c' r hinv2 hget2 happ2 h
            refine ⟨hr.1, hr.2.1.trans ((position_set_events self1 _).trans hsp),
              hr.2.2.trans ((length_set_events self1 _).trans hsl)⟩
theorem insert_step {fuel : Nat} (hp : PlacedP fuel) : InsertP (fuel + 1) := by
  intro self event c' r htt hlen hinv h
  unfold Container.insert at h
  split at h
  case h_1 rate heq => rw [htt] at heq; cases heq
  case h_2 heq =>
    split at h
    case h_1 tup hteq =>
      split at h
      case h_1 t hev =>
        cases hpush : Tuplet.push fuel t event with
        | error s => rw [hpush] at h; simp only [bind, Except.bind] at h; cases h
        | ok t2 =>
          rw [hpush] at h
          simp only [bind, Except.bind, Except.ok.injEq, Prod.mk.injEq] at h
          obtain ⟨h1, h2⟩ := h
          subst h1
          refine ⟨⟨?_, ?_⟩, rfl, rfl⟩
          · show isChain self.position.measure_index 0 self.events self.length.fraction
            exact hinv.1
          · show ∀ e ∈ self.events, 0 < e.length.fraction
            exact hinv.2
      case h_2 hne => cases h
    case h_2 hteq =>
      exact hp self event c' r htt hlen hinv h
  case h_3 heq => rw [htt] at heq; cases heq

theorem insert_preservation : ∀ fuel : Nat, InsertP fuel ∧ PlacedP fuel ∧ MergeP fuel := by
  intro fuel
  induction fuel with
  | zero =>
    refine ⟨?_, ?_, ?_⟩
    · intro self event c' r _ _ _ h
      exact absurd h (by simp [Container.insert])
    · intro self event c' r _ _ _ h
      exact absurd h (by simp [Container.insert_placed])
    · intro self idx current event app c' r _ _ _ h
      exact absurd h (by simp [Container.insert_merge])
  | succ fuel ih =>
    exact ⟨insert_step ih.2.1, placed_step ih.2.2, merge_step ih.1⟩

theorem insertAll_chainInv {fuel : Nat} {evs : List EventInfo} {c c' : Container}
    (hinv : chainInv c)
    (hevs : ∀ e ∈ evs, 0 < e.length.fraction ∧
      e.tuplet_type = EventTupletType.NonTuplet)
    (h : insertAll fuel c evs = .ok c') :
    chainInv c' ∧ c'.position = c.position ∧ c'.length = c.length := by
  induction evs generalizing c with
  | nil =>
    rw [insertAll] at h
    injection h with h
    subst h
    exact ⟨hinv, rfl, rfl⟩
  | cons e rest ih =>
    rw [insertAll] at h
    cases hins : Container.insert fuel c e with
    | error s => rw [hins] at h; cases h
    | ok pr =>
      rw [hins] at h
      have he := hevs e (List.mem_cons.mpr (.inl rfl))
      have hstep := (insert_preservation fuel).1 c e pr.1 pr.2 he.2 he.1 hinv hins
      obtain ⟨hinv1, hp1, hl1⟩ := hstep
      obtain ⟨hc2, hp2, hl2⟩ := ih hinv1 (fun x hx => hevs x (List.mem_cons.mpr (.inr hx))) h
      exact ⟨hc2, hp2.trans hp1, hl2.trans hl1⟩
/-- C1 (amended).  For a measure container freshly created by
`Container::empty` at offset 0 with positive length `L`, every sequence of
`Container::insert` calls that all return `Ok` and feed in events of
positive length and `NonTuplet` marker leaves the events as a head-to-tail
tiling of `[0, L)`: they are strictly ordered by start offset, pairwise
non-overlapping (by the source's `EventInfo::overlaps`), their lengths sum
exactly to `L`, and every offset `0 ≤ q < L` lies inside some event (no
gaps).  The positivity restriction is necessary: the source happily accepts
negative-length events, which break the invariant (see the counterexample),
and tuplet-marked events route through the spec-modelled tuplet arithmetic
instead of plain placement. -/
theorem C1_insert_invariant (fuel m : Nat) (L : ℚ) (evs : List EventInfo) (c' : Container)
    (hL : 0 < L)
    (hevs : ∀ e ∈ evs, 0 < e.length.fraction ∧
      e.tuplet_type = EventTupletType.NonTuplet)
    (h : insertAll fuel (Container.empty ⟨m, 0⟩ ⟨L⟩) evs = .ok c') :
    List.Pairwise (fun a b =>
      a.position.measure_position < b.position.measure_position) c'.events ∧
    List.Pairwise (fun a b => EventInfo.overlaps a b = false) c'.events ∧
    (c'.events.map (fun e => e.length.fraction)).sum = L ∧
    (∀ q : ℚ, 0 ≤ q → q < L → ∃ e ∈ c'.events, e.contains_pos ⟨m, q⟩ = true) := by
  have hinv0 : chainInv (Container.empty ⟨m, 0⟩ ⟨L⟩) := by
    constructor
    · exact ⟨rfl, rfl, zero_add L⟩
    · intro e he
      rcases List.mem_cons.mp he with rfl | he
      · exact hL
      · cases he
  obtain ⟨⟨hch, hpos⟩, hp, hl⟩ := insertAll_chainInv hinv0 hevs h
  have hmidx : c'.position.measure_index = m := by rw [hp]; rfl
  have hlf : c'.length.fraction = L := by rw [hl]; rfl
  rw [hmidx, hlf] at hch
  have hple := isChain_pairwise_le hch hpos
  refine ⟨?_, ?_, ?_, ?_⟩
  · refine List.Pairwise.imp_of_mem ?_ hple
    intro a b ha hb hab
    have := hpos a ha
    linarith
  · refine List.Pairwise.imp_of_mem ?_ hple
    intro a b ha hb hab
    exact overlaps_false_of_disjoint
      ((isChain_index hch a ha).trans (isChain_index hch b hb).symm)
      (hpos a ha) (hpos b hb) hab
  · have := isChain_sum hch
    linarith
  · intro q hq1 hq2
    exact isChain_cover hch hpos q hq1 hq2

/-- Witness for the amended C1 theorem at a concrete input: the eighth-note
insert of the C3 scenario, with every hypothesis discharged by evaluation. -/
theorem C1_insert_invariant_witness :
    insertAll 9 (Container.empty ⟨1, 0⟩ ⟨1⟩)
      [EventInfo.new ⟨1, mkRat 1 4⟩ ⟨mkRat 1 8⟩
        (.Note (Note.new (Pitch.from_midi 60 none)))] =
      .ok ⟨[EventInfo.new ⟨1, 0⟩ ⟨mkRat 1 4⟩ .Rest,
            EventInfo.new ⟨1, mkRat 1 4⟩ ⟨mkRat 1 8⟩
              (.Note (Note.new (Pitch.from_midi 60 none))),
            EventInfo.new ⟨1, mkRat 3 8⟩ ⟨mkRat 5 8⟩ .Rest],
           ⟨1, 0⟩, ⟨1⟩, none⟩ ∧
    (List.Pairwise (fun a b =>
      a.position.measure_position < b.position.measure_position)
      [EventInfo.new ⟨1, 0⟩ ⟨mkRat 1 4⟩ .Rest,
       EventInfo.new ⟨1, mkRat 1 4⟩ ⟨mkRat 1 8⟩
         (.Note (Note.new (Pitch.from_midi 60 none))),
       EventInfo.new ⟨1, mkRat 3 8⟩ ⟨mkRat 5 8⟩ .Rest] ∧
    List.Pairwise (fun a b => EventInfo.overlaps a b = false)
      [EventInfo.new ⟨1, 0⟩ ⟨mkRat 1 4⟩ .Rest,
       EventInfo.new ⟨1, mkRat 1 4⟩ ⟨mkRat 1 8⟩
         (.Note (Note.new (Pitch.from_midi 60 none))),
       EventInfo.new ⟨1, mkRat 3 8⟩ ⟨mkRat 5 8⟩ .Rest] ∧
    (([EventInfo.new ⟨1, 0⟩ ⟨mkRat 1 4⟩ .Rest,
       EventInfo.new ⟨1, mkRat 1 4⟩ ⟨mkRat 1 8⟩
         (.Note (Note.new (Pitch.from_midi 60 none))),
       EventInfo.new ⟨1, mkRat 3 8⟩ ⟨mkRat 5 8⟩ .Rest]).map
        (fun e => e.length.fraction)).sum = 1 ∧
    (∀ q : ℚ, 0 ≤ q → q < 1 →
      ∃ e ∈ [EventInfo.new ⟨1, 0⟩ ⟨mkRat 1 4⟩ .Rest,
             EventInfo.new ⟨1, mkRat 1 4⟩ ⟨mkRat 1 8⟩
               (.Note (Note.new (Pitch.from_midi 60 none))),
             EventInfo.new ⟨1, mkRat 3 8⟩ ⟨mkRat 5 8⟩ .Rest],
        e.contains_pos ⟨1, q⟩ = true)) := by
  refine ⟨rfl, ?_⟩
  exact C1_insert_invariant 9 1 1
    [EventInfo.new ⟨1, mkRat 1 4⟩ ⟨mkRat 1 8⟩
      (.Note (Note.new (Pitch.from_midi 60 none)))]
    ⟨[EventInfo.new ⟨1, 0⟩ ⟨mkRat 1 4⟩ .Rest,
      EventInfo.new ⟨1, mkRat 1 4⟩ ⟨mkRat 1 8⟩
        (.Note (Note.new (Pitch.from_midi 60 none))),
      EventInfo.new ⟨1, mkRat 3 8⟩ ⟨mkRat 5 8⟩ .Rest],
     ⟨1, 0⟩, ⟨1⟩, none⟩
    (by decide)
    (by
      intro e he
      rcases List.mem_cons.mp he with rfl | he
      · exact ⟨by decide, rfl⟩
      · cases he)
    rfl
